import Mathlib

/-!
# Verification of the worker-pool and reconciliation core of the utility-scripts repository

This file gives a shallow embedding of the two recurring components of the
repository selposited for specification:

* the declarative reconciler of `create-curation-policies.py`
  (`compare_conditions`, `compare_policies`), including its in-place mutation
  of the current entities, the exact field-comparison order of the source, the
  Python `set(...)` comparisons (modelled with `List.toFinset`), and the
  `KeyError` crash paths of the source (modelled with `Except String`);

* the bounded worker-pool of `repo-cleanup-move-or-delete-artifacts.py`
  (`ThreadWrapper`, `ArtifactDeleter.run` / `ArtifactMover.run`) and
  `random-file-generator.py` (`FilePoster.run`), modelled as an interleaving
  transition system over a pool state;

* the virtual-repository edit `add_federated_repo_to_virtual_repo` of
  `local-to-federated-add-to-virtual.py`, modelled over association-list
  dictionaries.

Theorems about the claims of the natural-language specification follow the
definitions.
-/

namespace UtilityScripts

/-! ## Reconciler data model (`create-curation-policies.py`)

Python entities are dictionaries.  The compare functions access a fixed set of
keys: keys accessed unconditionally are modelled as plain fields, keys guarded
by `"k" in input_policy` membership tests are modelled as `Option` fields.
Values compared with `!=` but never inspected further (`scope`,
`policy_action`, `waiver_request_config`, …) are modelled as `String`. -/

structure ParamValue where
  param_id : String
  value : String
deriving DecidableEq, Repr

structure Condition where
  name : String
  condition_template_id : String
  param_values : List ParamValue
  id : Option String
deriving DecidableEq, Repr

structure Waiver where
  id : String
  pkg_type : String
  pkg_name : String
  all_versions : Bool
  pkg_versions : List String
  justification : String
  created_by : String
  created_at : String
deriving DecidableEq, Repr

structure LabelWaiver where
  id : String
  label : String
  justification : String
  created_by : String
  created_at : String
deriving DecidableEq, Repr

structure Policy where
  name : String
  enabled : Bool
  scope : String
  repo_exclude : Option (List String)
  repo_include : Option (List String)
  pkg_types_include : Option (List String)
  policy_action : String
  condition_id : String
  waivers : Option (List Waiver)
  label_waivers : Option (List LabelWaiver)
  notify_emails : Option (List String)
  waiver_request_config : String
  decision_owners : Option (List String)
  id : Option String
deriving DecidableEq, Repr

/-! ## `compare_conditions` (source lines 79-128)

The source mutates the matched `current_condition` dictionary in place and
appends that same dictionary to the update list; the state-passing embedding
returns the post-call current list as an extra component, so the mutation is
observable in the result. -/

/-- Source lines 109-124: the body of the `param_values` loop.  For one input
param, the current params with the same `param_id` are collected; more than
one match, no match, or a differing `value` each trigger the wholesale
replacement of `param_values` (followed by `break`). -/
def paramChanged (curParams : List ParamValue) (p : ParamValue) : Bool :=
  match curParams.filter (fun x => x.param_id == p.param_id) with
  | [m] => p.value != m.value
  | _ => true

/-- Source lines 101-126: comparison of one matched condition pair.  Returns
the (possibly mutated) current condition and the `update` flag. -/
def compareOneCondition (inp cur : Condition) : Condition × Bool :=
  let st :=
    if inp.condition_template_id != cur.condition_template_id then
      ({ cur with condition_template_id := inp.condition_template_id }, true)
    else (cur, false)
  if inp.param_values.any (fun p => paramChanged st.1.param_values p) then
    ({ st.1 with param_values := inp.param_values }, true)
  else st

/-- One iteration of the `for input_condition in input_list` loop of
`compare_conditions` (source lines 91-126).  The state is
(current list, update list, create list); the current list carries the
in-place mutations of earlier iterations. -/
def compareConditionsStep (st : List Condition × List Condition × List Condition)
    (inp : Condition) : List Condition × List Condition × List Condition :=
  match st.1.filter (fun x => x.name == inp.name) with
  | [] => (st.1, st.2.1, st.2.2 ++ [inp])
  | [c] =>
      let r := compareOneCondition inp c
      (st.1.map (fun x => if x.name == inp.name then r.1 else x),
       if r.2 then st.2.1 ++ [r.1] else st.2.1, st.2.2)
  | _ => (st.1, st.2.1, st.2.2)

/-- `compare_conditions(input_list, current_list)` (source lines 79-128).
Returns (current list after the call, update list, create list); the source
returns only the last two, but the first records the in-place mutations of
the caller's `current_list` entries. -/
def compareConditions (inputList currentList : List Condition) :
    List Condition × List Condition × List Condition :=
  inputList.foldl compareConditionsStep (currentList, [], [])

/-! ## `compare_policies` (source lines 200-335)

Each `if` block of the source becomes one step function on the state
`(current_policy, update)`.  Python `set(a) != set(b)` on lists of strings is
modelled with `List.toFinset`.  Three source paths raise `KeyError`
(`input_policy["repo_exclude"]` on line 245 when the key is absent, and
`current_policy["waivers"]` / `current_policy["label_waivers"]` on lines
269/293 when current lacks the key); the embedding returns
`Except.error` there, matching the uncaught exception aborting the call. -/

/-- Source lines 226-229: the `enabled` comparison. -/
def enabledStep (inp : Policy) (st : Policy × Bool) : Policy × Bool :=
  if inp.enabled != st.1.enabled then ({ st.1 with enabled := inp.enabled }, true) else st

/-- Source lines 230-233: the `scope` comparison. -/
def scopeStep (inp : Policy) (st : Policy × Bool) : Policy × Bool :=
  if inp.scope != st.1.scope then ({ st.1 with scope := inp.scope }, true) else st

/-- Source lines 234-242: the two sequential `repo_exclude` checks
(key present in input but absent from current; then set inequality when
present in both — evaluated on the current dict as mutated by the first). -/
def repoExcludeStep (inp : Policy) (st : Policy × Bool) : Policy × Bool :=
  let st1 :=
    match inp.repo_exclude, st.1.repo_exclude with
    | some v, none => ({ st.1 with repo_exclude := some v }, true)
    | _, _ => st
  match inp.repo_exclude, st1.1.repo_exclude with
  | some v, some cv =>
      if v.toFinset ≠ cv.toFinset then ({ st1.1 with repo_exclude := some v }, true) else st1
  | _, _ => st1

/-- Source lines 243-250: the two sequential `repo_include` checks.  Line 245
assigns `input_policy["repo_exclude"]` (not `repo_include`) when the key is
absent from current, raising `KeyError` when input lacks `repo_exclude`; the
second check then compares against that just-assigned value. -/
def repoIncludeStep (inp : Policy) (st : Policy × Bool) : Except String (Policy × Bool) :=
  let st1e : Except String (Policy × Bool) :=
    match inp.repo_include, st.1.repo_include with
    | some _, none =>
        match inp.repo_exclude with
        | some v => .ok ({ st.1 with repo_include := some v }, true)
        | none => .error "KeyError: repo_exclude"
    | _, _ => .ok st
  match st1e with
  | .error e => .error e
  | .ok st1 =>
      match inp.repo_include, st1.1.repo_include with
      | some v, some cv =>
          if v.toFinset ≠ cv.toFinset then .ok ({ st1.1 with repo_include := some v }, true)
          else .ok st1
      | _, _ => .ok st1

/-- Source lines 251-258: the two sequential `pkg_types_include` checks. -/
def pkgTypesIncludeStep (inp : Policy) (st : Policy × Bool) : Policy × Bool :=
  let st1 :=
    match inp.pkg_types_include, st.1.pkg_types_include with
    | some v, none => ({ st.1 with pkg_types_include := some v }, true)
    | _, _ => st
  match inp.pkg_types_include, st1.1.pkg_types_include with
  | some v, some cv =>
      if v.toFinset ≠ cv.toFinset then ({ st1.1 with pkg_types_include := some v }, true) else st1
  | _, _ => st1

/-- Source lines 259-262: the `policy_action` comparison. -/
def policyActionStep (inp : Policy) (st : Policy × Bool) : Policy × Bool :=
  if inp.policy_action != st.1.policy_action then
    ({ st.1 with policy_action := inp.policy_action }, true)
  else st

/-- Source lines 263-266: the `condition_id` comparison. -/
def conditionIdStep (inp : Policy) (st : Policy × Bool) : Policy × Bool :=
  if inp.condition_id != st.1.condition_id then
    ({ st.1 with condition_id := inp.condition_id }, true)
  else st

/-- Source lines 280-286: the per-waiver change test.  The source combines
the seven field comparisons with logical `and`, so the waiver counts as
changed only when EVERY compared field differs (`pkg_versions` under set
comparison). -/
def waiverAllFieldsDiffer (w cw : Waiver) : Bool :=
  decide (w.pkg_type ≠ cw.pkg_type ∧ w.pkg_name ≠ cw.pkg_name ∧
    w.all_versions ≠ cw.all_versions ∧
    w.pkg_versions.toFinset ≠ cw.pkg_versions.toFinset ∧
    w.justification ≠ cw.justification ∧ w.created_by ≠ cw.created_by ∧
    w.created_at ≠ cw.created_at)

/-- Source lines 269-290: the body of the waiver loop for one input waiver:
duplicate id match, missing id match, or an all-fields-differ match each
trigger the wholesale replacement of `waivers` (followed by `break`). -/
def waiverTriggers (cws : List Waiver) (w : Waiver) : Bool :=
  match cws.filter (fun x => x.id == w.id) with
  | [cw] => waiverAllFieldsDiffer w cw
  | _ => true

/-- Source lines 267-290: the `waivers` comparison.  The loop body reads
`current_policy["waivers"]`, so a non-empty input waiver list with the key
absent from current raises `KeyError`; an empty input list never enters the
loop body. -/
def waiversStep (inp : Policy) (st : Policy × Bool) : Except String (Policy × Bool) :=
  match inp.waivers with
  | none => .ok st
  | some [] => .ok st
  | some ws =>
      match st.1.waivers with
      | none => .error "KeyError: waivers"
      | some cws =>
          if ws.any (fun w => waiverTriggers cws w) then
            .ok ({ st.1 with waivers := some ws }, true)
          else .ok st

/-- Source lines 304-307: the per-label-waiver change test, again combining
the four field comparisons with logical `and`. -/
def labelWaiverAllFieldsDiffer (w cw : LabelWaiver) : Bool :=
  decide (w.label ≠ cw.label ∧ w.justification ≠ cw.justification ∧
    w.created_by ≠ cw.created_by ∧ w.created_at ≠ cw.created_at)

/-- Source lines 293-311: the body of the label-waiver loop for one input
label waiver. -/
def labelWaiverTriggers (cws : List LabelWaiver) (w : LabelWaiver) : Bool :=
  match cws.filter (fun x => x.id == w.id) with
  | [cw] => labelWaiverAllFieldsDiffer w cw
  | _ => true

/-- Source lines 291-311: the `label_waivers` comparison. -/
def labelWaiversStep (inp : Policy) (st : Policy × Bool) : Except String (Policy × Bool) :=
  match inp.label_waivers with
  | none => .ok st
  | some [] => .ok st
  | some ws =>
      match st.1.label_waivers with
      | none => .error "KeyError: label_waivers"
      | some cws =>
          if ws.any (fun w => labelWaiverTriggers cws w) then
            .ok ({ st.1 with label_waivers := some ws }, true)
          else .ok st

/-- Source lines 312-319: the two sequential `notify_emails` checks. -/
def notifyEmailsStep (inp : Policy) (st : Policy × Bool) : Policy × Bool :=
  let st1 :=
    match inp.notify_emails, st.1.notify_emails with
    | some v, none => ({ st.1 with notify_emails := some v }, true)
    | _, _ => st
  match inp.notify_emails, st1.1.notify_emails with
  | some v, some cv =>
      if v.toFinset ≠ cv.toFinset then ({ st1.1 with notify_emails := some v }, true) else st1
  | _, _ => st1

/-- Source lines 320-323: the `waiver_request_config` comparison. -/
def waiverRequestConfigStep (inp : Policy) (st : Policy × Bool) : Policy × Bool :=
  if inp.waiver_request_config != st.1.waiver_request_config then
    ({ st.1 with waiver_request_config := inp.waiver_request_config }, true)
  else st

/-- Source lines 324-331: the two sequential `decision_owners` checks. -/
def decisionOwnersStep (inp : Policy) (st : Policy × Bool) : Policy × Bool :=
  let st1 :=
    match inp.decision_owners, st.1.decision_owners with
    | some v, none => ({ st.1 with decision_owners := some v }, true)
    | _, _ => st
  match inp.decision_owners, st1.1.decision_owners with
  | some v, some cv =>
      if v.toFinset ≠ cv.toFinset then ({ st1.1 with decision_owners := some v }, true) else st1
  | _, _ => st1

/-- Source lines 223-331: the comparison of one matched policy pair, in the
exact order of the source's `if` blocks.  Returns the (possibly mutated)
current policy and the `update` flag, or the `KeyError` aborting the call. -/
def comparePolicyPair (inp cur : Policy) : Except String (Policy × Bool) :=
  match repoIncludeStep inp (repoExcludeStep inp (scopeStep inp (enabledStep inp (cur, false)))) with
  | .error e => .error e
  | .ok st =>
      match waiversStep inp (conditionIdStep inp (policyActionStep inp (pkgTypesIncludeStep inp st))) with
      | .error e => .error e
      | .ok st =>
          match labelWaiversStep inp st with
          | .error e => .error e
          | .ok st =>
              .ok (decisionOwnersStep inp (waiverRequestConfigStep inp (notifyEmailsStep inp st)))

/-- The `for input_policy in input_list` loop of `compare_policies`
(source lines 212-334).  The state is (current list, update list, create
list); the current list carries the in-place mutations of earlier
iterations, which later name lookups observe. -/
def comparePoliciesAux (st : List Policy × List Policy × List Policy) :
    List Policy → Except String (List Policy × List Policy × List Policy)
  | [] => .ok st
  | inp :: rest =>
      match st.1.filter (fun x => x.name == inp.name) with
      | [] => comparePoliciesAux (st.1, st.2.1, st.2.2 ++ [inp]) rest
      | [c] =>
          match comparePolicyPair inp c with
          | .error e => .error e
          | .ok r =>
              comparePoliciesAux
                (st.1.map (fun x => if x.name == inp.name then r.1 else x),
                 if r.2 then st.2.1 ++ [r.1] else st.2.1, st.2.2) rest
      | _ => comparePoliciesAux st rest

/-- `compare_policies(input_list, current_list)` (source lines 200-335).
Returns (current list after the call, update list, create list); the source
returns only the last two, but the first records the in-place mutations of
the caller's `current_list` entries. -/
def comparePolicies (inputList currentList : List Policy) :
    Except String (List Policy × List Policy × List Policy) :=
  comparePoliciesAux (currentList, [], []) inputList

/-- Modelled from the spec: applying the reconciler's outputs to the current
list ("applying all `toCreate` as creates and all `toUpdate` as updates to
produce a new `current'`").  Each update replaces the record with the same
identity; each create appends a new record. -/
def applyReconciliation (current upd cre : List Policy) : List Policy :=
  current.map (fun c =>
    match upd.find? (fun u => u.name == c.name) with
    | some u => u
    | none => c) ++ cre

/-- An optional set-valued field pair on which the two sequential source
checks fire no update: absent from desired, or present in both with equal
value sets. -/
def OptSetOk : Option (List String) → Option (List String) → Prop
  | none, _ => True
  | some a, some b => a.toFinset = b.toFinset
  | some _, none => False

/-- A waiver-field pair on which the waiver loop fires no update. -/
def WaiversOk : Option (List Waiver) → Option (List Waiver) → Prop
  | none, _ => True
  | some [], _ => True
  | some ws, some cws => ws.any (fun w => waiverTriggers cws w) = false
  | some (_ :: _), none => False

/-- A label-waiver-field pair on which the label-waiver loop fires no update. -/
def LabelWaiversOk : Option (List LabelWaiver) → Option (List LabelWaiver) → Prop
  | none, _ => True
  | some [], _ => True
  | some ws, some cws => ws.any (fun w => labelWaiverTriggers cws w) = false
  | some (_ :: _), none => False

/-- The "unique identities" assumption of the spec applied to the nested
sub-collections: waiver and label-waiver ids are unique within the entity. -/
def WaiverIdsNodup (p : Policy) : Prop :=
  (∀ ws, p.waivers = some ws → (ws.map (fun w => w.id)).Nodup) ∧
  (∀ ws, p.label_waivers = some ws → (ws.map (fun w => w.id)).Nodup)

/-- Value of an optional set field after a matched comparison: whenever the
desired side carries a value, the mutated current side carries a value with
the same element set. -/
def OptSetPost : Option (List String) → Option (List String) → Prop
  | none, _ => True
  | some a, v => ∃ cv, v = some cv ∧ cv.toFinset = a.toFinset

/-- Value of the waiver field after a matched comparison: the desired list
verbatim, or an untouched current list on which no input waiver triggers. -/
def WaiversPost : Option (List Waiver) → Option (List Waiver) → Prop
  | none, _ => True
  | some [], _ => True
  | some ws, v => v = some ws ∨ ∃ cws, v = some cws ∧
      ws.any (fun w => waiverTriggers cws w) = false

/-- As `WaiversPost` for label waivers. -/
def LabelWaiversPost : Option (List LabelWaiver) → Option (List LabelWaiver) → Prop
  | none, _ => True
  | some [], _ => True
  | some ws, v => v = some ws ∨ ∃ cws, v = some cws ∧
      ws.any (fun w => labelWaiverTriggers cws w) = false

/-- Name occurrence count used by the reconciler's identity matching. -/
def countName (l : List Policy) (n : String) : Nat :=
  (l.filter (fun c => c.name == n)).length

/-- As `countName` for conditions. -/
def countCondName (l : List Condition) (n : String) : Nat :=
  (l.filter (fun c => c.name == n)).length

/-! ## Worker pool (`repo-cleanup-move-or-delete-artifacts.py` lines 138-233,
`random-file-generator.py` lines 164-216)

`ArtifactDeleter.run` / `ArtifactMover.run` / `FilePoster.run` all execute the
same loop:

    while not self._shutdown:
        try: item = self._input_queue.get_nowait()
        except queue.Empty: self.stop(); break
        <invoke the per-item action on item>
        self._input_queue.task_done()

The embedding is an interleaving transition system.  Work items are `Nat`.
Each worker has a program counter splitting the loop at its atomic points:
the `_shutdown` flag check, the atomic `get_nowait`, and the action
invocation.  The action body contains no `try`/`except` in any of the three
worker classes, so an exception raised by the action (modelled by the
`raises` predicate) terminates that worker's `run` without marking the item
done — the `crashed` status.  `stop_threads` (lines 154-157) sets each
worker's flag one at a time; those environment steps are gated by the `stops`
parameter so that runs without a stop request can be described. -/

inductive PC where
  | loopCheck
  | deq
  | work (item : Nat)
  | done
  | crashed
deriving DecidableEq, Repr

structure WState where
  pc : PC
  shutdown : Bool
deriving DecidableEq, Repr

structure PoolState where
  queue : List Nat
  workers : List WState
  /-- Invocation log: (worker index, item), in invocation order.  An entry is
  appended when the action is invoked, whether or not it raises. -/
  invoked : List (Nat × Nat)
deriving DecidableEq, Repr

/-- `ThreadWrapper.start_threads` with pool size `p` on a pre-populated
queue: `p` fresh workers, each at the top of its loop with a clear
`_shutdown` flag, and nothing invoked yet. -/
def initPool (items : List Nat) (p : Nat) : PoolState :=
  ⟨items, List.replicate p ⟨.loopCheck, false⟩, []⟩

/-- One atomic step of the pool.  The stepping worker is singled out by the
`l₁ ++ w :: l₂` decomposition (its index is `l₁.length`). -/
inductive Step (raises : Nat → Bool) (stops : Bool) : PoolState → PoolState → Prop where
  /-- The `while not self._shutdown` test observes a set flag: the loop ends. -/
  | checkStop (q : List Nat) (l₁ l₂ : List WState) (inv : List (Nat × Nat)) :
      Step raises stops ⟨q, l₁ ++ ⟨.loopCheck, true⟩ :: l₂, inv⟩
        ⟨q, l₁ ++ ⟨.done, true⟩ :: l₂, inv⟩
  /-- The `while not self._shutdown` test observes a clear flag: proceed to
  the dequeue attempt. -/
  | checkGo (q : List Nat) (l₁ l₂ : List WState) (inv : List (Nat × Nat)) :
      Step raises stops ⟨q, l₁ ++ ⟨.loopCheck, false⟩ :: l₂, inv⟩
        ⟨q, l₁ ++ ⟨.deq, false⟩ :: l₂, inv⟩
  /-- `get_nowait` raises `queue.Empty`: the worker calls `self.stop()` and
  breaks out of the loop. -/
  | deqEmpty (l₁ l₂ : List WState) (b : Bool) (inv : List (Nat × Nat)) :
      Step raises stops ⟨[], l₁ ++ ⟨.deq, b⟩ :: l₂, inv⟩
        ⟨[], l₁ ++ ⟨.done, true⟩ :: l₂, inv⟩
  /-- `get_nowait` atomically removes and returns the head item. -/
  | deqItem (x : Nat) (q : List Nat) (l₁ l₂ : List WState) (b : Bool) (inv : List (Nat × Nat)) :
      Step raises stops ⟨x :: q, l₁ ++ ⟨.deq, b⟩ :: l₂, inv⟩
        ⟨q, l₁ ++ ⟨.work x, b⟩ :: l₂, inv⟩
  /-- The action invocation returns normally; `task_done` is called and the
  worker loops. -/
  | workOk (x : Nat) (q : List Nat) (l₁ l₂ : List WState) (b : Bool) (inv : List (Nat × Nat)) :
      raises x = false →
      Step raises stops ⟨q, l₁ ++ ⟨.work x, b⟩ :: l₂, inv⟩
        ⟨q, l₁ ++ ⟨.loopCheck, b⟩ :: l₂, inv ++ [(l₁.length, x)]⟩
  /-- The action invocation raises: no handler exists in `run`, so the
  exception ends the thread; `task_done` is never reached. -/
  | workRaise (x : Nat) (q : List Nat) (l₁ l₂ : List WState) (b : Bool) (inv : List (Nat × Nat)) :
      raises x = true →
      Step raises stops ⟨q, l₁ ++ ⟨.work x, b⟩ :: l₂, inv⟩
        ⟨q, l₁ ++ ⟨.crashed, b⟩ :: l₂, inv ++ [(l₁.length, x)]⟩
  /-- One iteration of the `stop_threads` loop: `thread.stop()` sets one
  worker's `_shutdown` flag. -/
  | stopOne (q : List Nat) (l₁ l₂ : List WState) (pc : PC) (b : Bool) (inv : List (Nat × Nat)) :
      stops = true →
      Step raises stops ⟨q, l₁ ++ ⟨pc, b⟩ :: l₂, inv⟩
        ⟨q, l₁ ++ ⟨pc, true⟩ :: l₂, inv⟩

/-- Zero or more pool steps. -/
def Steps (raises : Nat → Bool) (stops : Bool) : PoolState → PoolState → Prop :=
  Relation.ReflTransGen (Step raises stops)

/-- `join_threads` returns exactly when every worker's `run` has ended —
normally (`done`) or by an uncaught exception (`crashed`). -/
def joined (s : PoolState) : Prop :=
  ∀ w ∈ s.workers, w.pc = PC.done ∨ w.pc = PC.crashed

instance (s : PoolState) : Decidable (joined s) := by
  unfold joined; infer_instance

/-- The items whose action invocation has started (in order). -/
def invokedItems (s : PoolState) : List Nat :=
  s.invoked.map Prod.snd

/-- The items currently dequeued but not yet finished by the invocation step. -/
def inflight (s : PoolState) : List Nat :=
  s.workers.filterMap (fun w => match w.pc with | .work x => some x | _ => none)

/-- Number of invocations recorded for worker index `i`. -/
def invokedBy (i : Nat) (s : PoolState) : Nat :=
  (s.invoked.filter (fun p => p.1 == i)).length

/-- `ThreadWrapper.stop_threads` (source lines 154-157) as a function on the
pool state: set every worker's `_shutdown` flag. -/
def stopThreads (s : PoolState) : PoolState :=
  ⟨s.queue, s.workers.map (fun w => ⟨w.pc, true⟩), s.invoked⟩

/-! ## `add_federated_repo_to_virtual_repo`
(`local-to-federated-add-to-virtual.py` lines 133-144)

A virtual-repository configuration is a JSON dictionary; it is modelled as an
association list from keys to a JSON-ish value type rich enough for the two
fields the function touches (`"repositories"` is a list of repository keys,
`"defaultDeploymentRepo"` a string) plus opaque other values.  Python dict
assignment keeps the position of an existing key and appends a missing one;
`dictSet` mirrors that. -/

inductive JVal where
  | str (s : String)
  | arr (l : List String)
  | bool (b : Bool)
  | num (n : Int)
deriving DecidableEq, Repr

/-- Python `d[k]` as a total lookup (first hit). -/
def dictGet (d : List (String × JVal)) (k : String) : Option JVal :=
  (d.find? (fun p => p.1 == k)).map (fun p => p.2)

/-- Python `d[k] = v`: replace in place, or append when the key is new. -/
def dictSet : List (String × JVal) → String → JVal → List (String × JVal)
  | [], k, v => [(k, v)]
  | (k', v') :: rest, k, v =>
      if k' == k then (k, v) :: rest else (k', v') :: dictSet rest k v

/-- Source lines 133-144.  `copy.deepcopy` makes the edits invisible to the
caller's dictionary, so the embedding is a plain function of the input value.
`updated_virt_repo["repositories"].insert(0, federated_repo_key)` prepends in
place (raising when the key is missing or not a list, the `none` case), then
`"defaultDeploymentRepo"` is assigned the federated key. -/
def add_federated_repo_to_virtual_repo (virtual_repo_config : List (String × JVal))
    (federated_repo_key : String) : Option (List (String × JVal)) :=
  match dictGet virtual_repo_config "repositories" with
  | some (.arr repos) =>
      some (dictSet (dictSet virtual_repo_config "repositories"
              (.arr (federated_repo_key :: repos)))
            "defaultDeploymentRepo" (.str federated_repo_key))
  | _ => none

/-! ## Concrete instances used by the closed theorems -/

def samplePolicy : Policy :=
  { name := "p1", enabled := true, scope := "repo",
    repo_exclude := none, repo_include := none, pkg_types_include := none,
    policy_action := "block", condition_id := "cond-1",
    waivers := none, label_waivers := none, notify_emails := none,
    waiver_request_config := "manual", decision_owners := none, id := none }

def c2Desired : Policy := { samplePolicy with repo_exclude := some ["a"] }

def c2Current : Policy := { samplePolicy with id := some "7" }

def c2Updated : Policy := { c2Current with repo_exclude := some ["a"] }

def sampleWaiver : Waiver :=
  { id := "w1", pkg_type := "npm", pkg_name := "lodash", all_versions := true,
    pkg_versions := [], justification := "old reason", created_by := "alice",
    created_at := "2024-01-01" }

def c3Desired : Policy :=
  { samplePolicy with waivers := some [{ sampleWaiver with justification := "new reason" }] }

def c3Current : Policy := { samplePolicy with waivers := some [sampleWaiver], id := some "7" }

def c5DesiredCrash : Policy := { samplePolicy with repo_include := some ["a"] }

def c5DesiredWrong : Policy :=
  { samplePolicy with repo_include := some ["a", "b"], repo_exclude := some ["b", "a"] }

def c5Current : Policy := { samplePolicy with id := some "7" }

def c5Updated : Policy :=
  { c5Current with repo_exclude := some ["b", "a"], repo_include := some ["b", "a"] }

def c7Desired : Policy := { samplePolicy with scope := "global" }

def c7Current : Policy := { samplePolicy with id := some "7" }

def c7Mutated : Policy := { c7Current with scope := "global" }

def c8Desired : Policy := { samplePolicy with repo_exclude := some ["a", "b"] }

def c8Current : Policy := { samplePolicy with repo_exclude := some ["b", "a"], id := some "7" }

def sampleCondition : Condition :=
  { name := "c1", condition_template_id := "tmpl-1", param_values := [], id := none }

def c6CondCurrent : List Condition :=
  [{ sampleCondition with id := some "1" }, { sampleCondition with id := some "2" }]

def c6PolCurrent : List Policy :=
  [{ samplePolicy with id := some "1" }, { samplePolicy with id := some "2" }]

def c10Cfg : List (String × JVal) :=
  [("key", .str "virt"), ("rclass", .str "virtual"),
   ("repositories", .arr ["r1", "r2"]), ("defaultDeploymentRepo", .str "r1")]

def c10Out : List (String × JVal) :=
  [("key", .str "virt"), ("rclass", .str "virtual"),
   ("repositories", .arr ["fed", "r1", "r2"]), ("defaultDeploymentRepo", .str "fed")]

/-! ## Worker-pool invariants -/

/-- Without stop requests, a set `_shutdown` flag can only have been set by
the worker itself upon observing an empty queue, which also ends its loop. -/
def FlagDone (s : PoolState) : Prop :=
  ∀ w ∈ s.workers, w.shutdown = true → w.pc = PC.done

/-- Once any worker has finished normally, the queue is (and stays) empty —
without stop requests the only way to finish is to observe an empty queue. -/
def DoneEmpty (s : PoolState) : Prop :=
  (∃ w ∈ s.workers, w.pc = PC.done) → s.queue = []

/-- No worker ever crashes when no action raises. -/
def NoCrash (s : PoolState) : Prop :=
  ∀ w ∈ s.workers, w.pc ≠ PC.crashed

/-- Each crashed worker accounts for one invocation of a raising item. -/
def CrashBound (raises : Nat → Bool) (s : PoolState) : Prop :=
  s.workers.countP (fun w => decide (w.pc = PC.crashed)) ≤
    s.invoked.countP (fun q => raises q.2)

/-- Loop-position weight used for the termination measure. -/
def wWeight (w : WState) : Nat :=
  match w.pc with
  | PC.loopCheck => 2
  | PC.deq => 1
  | PC.work _ => 3
  | PC.done => 0
  | PC.crashed => 0

/-- Each full loop iteration consumes a queue item, so this measure
decreases at every step that is not a stop request. -/
def poolMeasure (s : PoolState) : Nat :=
  3 * s.queue.length + (s.workers.map wWeight).sum

/-- A worker that has observed the stop signal at the top of its loop (or has
already ended) stays there: it never dequeues or invokes again. -/
def StoppedAt (i : Nat) (s : PoolState) : Prop :=
  s.workers[i]? = some ⟨PC.loopCheck, true⟩ ∨ s.workers[i]? = some ⟨PC.done, true⟩


section PoolLemmas

variable {raises : Nat → Bool} {stops : Bool}

theorem perm_take_from_queue (x : Nat) (inv a b q : List Nat) :
    (inv ++ (a ++ x :: b) ++ q).Perm (inv ++ (a ++ b) ++ (x :: q)) := by
  simp only [List.append_assoc, List.cons_append]
  refine List.Perm.append_left inv ?_
  have h2 : (x :: (b ++ q)).Perm (b ++ x :: q) := by
    have := @List.perm_middle Nat x b q
    exact this.symm
  exact List.Perm.append_left a h2

theorem perm_finish_item (x : Nat) (inv a b q : List Nat) :
    ((inv ++ [x]) ++ (a ++ b) ++ q).Perm (inv ++ (a ++ x :: b) ++ q) := by
  simp only [List.append_assoc, List.singleton_append, List.cons_append]
  refine List.Perm.append_left inv ?_
  have h2 : (x :: (a ++ (b ++ q))).Perm (a ++ x :: (b ++ q)) := by
    have := @List.perm_middle Nat x a (b ++ q)
    exact this.symm
  exact h2

/-- Items are conserved by every step: the invocation log, the in-flight
items and the queue together form a fixed multiset. -/
theorem step_conserves {s t : PoolState} (h : Step raises stops s t) :
    (invokedItems t ++ inflight t ++ t.queue).Perm
      (invokedItems s ++ inflight s ++ s.queue) := by
  cases h with
  | checkStop q l₁ l₂ inv =>
      simp only [invokedItems, inflight, List.filterMap_append, List.filterMap_cons]
      exact List.Perm.refl _
  | checkGo q l₁ l₂ inv =>
      simp only [invokedItems, inflight, List.filterMap_append, List.filterMap_cons]
      exact List.Perm.refl _
  | deqEmpty l₁ l₂ b inv =>
      simp only [invokedItems, inflight, List.filterMap_append, List.filterMap_cons]
      exact List.Perm.refl _
  | deqItem x q l₁ l₂ b inv =>
      simp only [invokedItems, inflight, List.filterMap_append, List.filterMap_cons]
      exact perm_take_from_queue x _ _ _ q
  | workOk x q l₁ l₂ b inv hx =>
      simp only [invokedItems, inflight, List.filterMap_append, List.filterMap_cons,
        List.map_append]
      exact perm_finish_item x _ _ _ q
  | workRaise x q l₁ l₂ b inv hx =>
      simp only [invokedItems, inflight, List.filterMap_append, List.filterMap_cons,
        List.map_append]
      exact perm_finish_item x _ _ _ q
  | stopOne q l₁ l₂ pc b inv hs =>
      simp only [invokedItems, inflight, List.filterMap_append, List.filterMap_cons]
      exact List.Perm.refl _

theorem steps_conserve {s t : PoolState} (h : Steps raises stops s t) :
    (invokedItems t ++ inflight t ++ t.queue).Perm
      (invokedItems s ++ inflight s ++ s.queue) := by
  induction h with
  | refl => exact List.Perm.refl _
  | tail _ hstep ih => exact (step_conserves hstep).trans ih

theorem step_flagDone {raises : Nat → Bool} {s t : PoolState}
    (h : Step raises false s t) (hI : FlagDone s) : FlagDone t := by
  cases h with
  | checkStop q l₁ l₂ inv =>
      have := hI ⟨PC.loopCheck, true⟩ (by simp)
      simp at this
  | checkGo q l₁ l₂ inv =>
      intro w hw
      simp only [List.mem_append, List.mem_cons] at hw
      rcases hw with h1 | h1 | h1
      · exact hI w (by simp [h1])
      · subst h1; intro hc; cases hc
      · exact hI w (by simp [h1])
  | deqEmpty l₁ l₂ b inv =>
      intro w hw
      simp only [List.mem_append, List.mem_cons] at hw
      rcases hw with h1 | h1 | h1
      · exact hI w (by simp [h1])
      · subst h1; intro _; rfl
      · exact hI w (by simp [h1])
  | deqItem x q l₁ l₂ b inv =>
      intro w hw
      simp only [List.mem_append, List.mem_cons] at hw
      rcases hw with h1 | h1 | h1
      · exact hI w (by simp [h1])
      · subst h1
        intro hb
        have := hI ⟨PC.deq, b⟩ (by simp) (by simpa using hb)
        cases this
      · exact hI w (by simp [h1])
  | workOk x q l₁ l₂ b inv hx =>
      intro w hw
      simp only [List.mem_append, List.mem_cons] at hw
      rcases hw with h1 | h1 | h1
      · exact hI w (by simp [h1])
      · subst h1
        intro hb
        have := hI ⟨PC.work x, b⟩ (by simp) (by simpa using hb)
        cases this
      · exact hI w (by simp [h1])
  | workRaise x q l₁ l₂ b inv hx =>
      intro w hw
      simp only [List.mem_append, List.mem_cons] at hw
      rcases hw with h1 | h1 | h1
      · exact hI w (by simp [h1])
      · subst h1
        intro hb
        have := hI ⟨PC.work x, b⟩ (by simp) (by simpa using hb)
        cases this
      · exact hI w (by simp [h1])
  | stopOne q l₁ l₂ pc b inv hs =>
      cases hs

theorem step_doneEmpty {raises : Nat → Bool} {s t : PoolState}
    (h : Step raises false s t) (hF : FlagDone s) (hI : DoneEmpty s) : DoneEmpty t := by
  cases h with
  | checkStop q l₁ l₂ inv =>
      have := hF ⟨PC.loopCheck, true⟩ (by simp)
      simp at this
  | checkGo q l₁ l₂ inv =>
      intro hex
      refine hI ?_
      obtain ⟨w, hw, hd⟩ := hex
      simp only [List.mem_append, List.mem_cons] at hw
      rcases hw with h1 | h1 | h1
      · exact ⟨w, by simp [h1], hd⟩
      · subst h1; cases hd
      · exact ⟨w, by simp [h1], hd⟩
  | deqEmpty l₁ l₂ b inv => intro _; rfl
  | deqItem x q l₁ l₂ b inv =>
      intro hex
      obtain ⟨w, hw, hd⟩ := hex
      simp only [List.mem_append, List.mem_cons] at hw
      have hq : (⟨x :: q, l₁ ++ ⟨PC.deq, b⟩ :: l₂, inv⟩ : PoolState).queue = [] := by
        refine hI ?_
        rcases hw with h1 | h1 | h1
        · exact ⟨w, by simp [h1], hd⟩
        · subst h1; cases hd
        · exact ⟨w, by simp [h1], hd⟩
      cases hq
  | workOk x q l₁ l₂ b inv hx =>
      intro hex
      obtain ⟨w, hw, hd⟩ := hex
      simp only [List.mem_append, List.mem_cons] at hw
      refine hI ?_
      rcases hw with h1 | h1 | h1
      · exact ⟨w, by simp [h1], hd⟩
      · subst h1; cases hd
      · exact ⟨w, by simp [h1], hd⟩
  | workRaise x q l₁ l₂ b inv hx =>
      intro hex
      obtain ⟨w, hw, hd⟩ := hex
      simp only [List.mem_append, List.mem_cons] at hw
      refine hI ?_
      rcases hw with h1 | h1 | h1
      · exact ⟨w, by simp [h1], hd⟩
      · subst h1; cases hd
      · exact ⟨w, by simp [h1], hd⟩
  | stopOne q l₁ l₂ pc b inv hs =>
      cases hs

theorem step_noCrash {stops : Bool} {s t : PoolState}
    (h : Step (fun _ => false) stops s t) (hI : NoCrash s) : NoCrash t := by
  cases h with
  | workRaise x q l₁ l₂ b inv hx => cases hx
  | checkStop q l₁ l₂ inv =>
      intro w hw
      simp only [List.mem_append, List.mem_cons] at hw
      rcases hw with h1 | h1 | h1
      · exact hI w (by simp [h1])
      · subst h1; intro hc; cases hc
      · exact hI w (by simp [h1])
  | checkGo q l₁ l₂ inv =>
      intro w hw
      simp only [List.mem_append, List.mem_cons] at hw
      rcases hw with h1 | h1 | h1
      · exact hI w (by simp [h1])
      · subst h1; intro hc; cases hc
      · exact hI w (by simp [h1])
  | deqEmpty l₁ l₂ b inv =>
      intro w hw
      simp only [List.mem_append, List.mem_cons] at hw
      rcases hw with h1 | h1 | h1
      · exact hI w (by simp [h1])
      · subst h1; intro hc; cases hc
      · exact hI w (by simp [h1])
  | deqItem x q l₁ l₂ b inv =>
      intro w hw
      simp only [List.mem_append, List.mem_cons] at hw
      rcases hw with h1 | h1 | h1
      · exact hI w (by simp [h1])
      · subst h1; intro hc; cases hc
      · exact hI w (by simp [h1])
  | workOk x q l₁ l₂ b inv hx =>
      intro w hw
      simp only [List.mem_append, List.mem_cons] at hw
      rcases hw with h1 | h1 | h1
      · exact hI w (by simp [h1])
      · subst h1; intro hc; cases hc
      · exact hI w (by simp [h1])
  | stopOne q l₁ l₂ pc b inv hs =>
      intro w hw
      simp only [List.mem_append, List.mem_cons] at hw
      rcases hw with h1 | h1 | h1
      · exact hI w (by simp [h1])
      · subst h1
        exact hI ⟨pc, b⟩ (by simp)
      · exact hI w (by simp [h1])

theorem step_workers_length {raises : Nat → Bool} {stops : Bool} {s t : PoolState}
    (h : Step raises stops s t) : t.workers.length = s.workers.length := by
  cases h <;> simp

theorem steps_workers_length {raises : Nat → Bool} {stops : Bool} {s t : PoolState}
    (h : Steps raises stops s t) : t.workers.length = s.workers.length := by
  induction h with
  | refl => rfl
  | tail _ hstep ih => exact (step_workers_length hstep).trans ih

theorem initPool_flagDone (items : List Nat) (p : Nat) : FlagDone (initPool items p) := by
  intro w hw
  simp only [initPool, List.mem_replicate] at hw
  rw [hw.2]
  intro hc
  cases hc

theorem initPool_doneEmpty (items : List Nat) (p : Nat) :
    (∃ w ∈ (initPool items p).workers, w.pc = PC.done) → False := by
  rintro ⟨w, hw, hd⟩
  simp only [initPool, List.mem_replicate] at hw
  rw [hw.2] at hd
  cases hd

theorem initPool_noCrash (items : List Nat) (p : Nat) : NoCrash (initPool items p) := by
  intro w hw
  simp only [initPool, List.mem_replicate] at hw
  rw [hw.2]
  intro hc
  cases hc

theorem steps_flagDone {raises : Nat → Bool} {s t : PoolState}
    (h : Steps raises false s t) (hI : FlagDone s) : FlagDone t := by
  induction h with
  | refl => exact hI
  | tail _ hstep ih => exact step_flagDone hstep ih

theorem steps_doneEmpty {raises : Nat → Bool} {s t : PoolState}
    (h : Steps raises false s t) (hF : FlagDone s) (hI : DoneEmpty s) : DoneEmpty t := by
  induction h with
  | refl => exact hI
  | tail hpre hstep ih =>
      exact step_doneEmpty hstep (steps_flagDone hpre hF) ih

theorem steps_noCrash {stops : Bool} {s t : PoolState}
    (h : Steps (fun _ => false) stops s t) (hI : NoCrash s) : NoCrash t := by
  induction h with
  | refl => exact hI
  | tail _ hstep ih => exact step_noCrash hstep ih

theorem joined_inflight_nil {s : PoolState} (h : joined s) : inflight s = [] := by
  rw [inflight, List.filterMap_eq_nil_iff]
  intro w hw
  rcases h w hw with hd | hd <;> rw [hd]

theorem invokedItems_initPool (items : List Nat) (p : Nat) :
    invokedItems (initPool items p) = [] := rfl

theorem inflight_initPool (items : List Nat) (p : Nat) :
    inflight (initPool items p) = [] := by
  rw [inflight, List.filterMap_eq_nil_iff]
  intro w hw
  simp only [initPool, List.mem_replicate] at hw
  rw [hw.2]

/-- Main drain lemma: a completed run without stop requests in which no
worker crashed has invoked the action on exactly the initial items. -/
theorem drained {raises : Nat → Bool} {items : List Nat} {p : Nat} {s : PoolState}
    (hp : 1 ≤ p) (hr : Steps raises false (initPool items p) s)
    (hj : joined s) (hnc : NoCrash s) : (invokedItems s).Perm items := by
  have hlen : s.workers.length = p := by
    rw [steps_workers_length hr]
    simp [initPool]
  have hne : s.workers ≠ [] := by
    intro hnil
    rw [hnil] at hlen
    simp at hlen
    omega
  obtain ⟨w, hw⟩ := List.exists_mem_of_ne_nil s.workers hne
  have hwdone : w.pc = PC.done := by
    rcases hj w hw with hd | hd
    · exact hd
    · exact absurd hd (hnc w hw)
  have hqe : s.queue = [] :=
    steps_doneEmpty hr (initPool_flagDone items p)
      (fun hex => absurd hex (initPool_doneEmpty items p)) ⟨w, hw, hwdone⟩
  have hperm := steps_conserve hr
  rw [invokedItems_initPool, inflight_initPool, joined_inflight_nil hj, hqe] at hperm
  simpa [initPool] using hperm

theorem step_crashBound {raises : Nat → Bool} {stops : Bool} {s t : PoolState}
    (h : Step raises stops s t) (hI : CrashBound raises s) : CrashBound raises t := by
  cases h with
  | checkStop q l₁ l₂ inv =>
      unfold CrashBound at hI ⊢
      simpa [List.countP_append, List.countP_cons] using hI
  | checkGo q l₁ l₂ inv =>
      unfold CrashBound at hI ⊢
      simpa [List.countP_append, List.countP_cons] using hI
  | deqEmpty l₁ l₂ b inv =>
      unfold CrashBound at hI ⊢
      simpa [List.countP_append, List.countP_cons] using hI
  | deqItem x q l₁ l₂ b inv =>
      unfold CrashBound at hI ⊢
      simpa [List.countP_append, List.countP_cons] using hI
  | workOk x q l₁ l₂ b inv hx =>
      unfold CrashBound at hI ⊢
      simp only [List.countP_append, List.countP_cons] at hI ⊢
      simp [hx]
      omega
  | workRaise x q l₁ l₂ b inv hx =>
      unfold CrashBound at hI ⊢
      simp only [List.countP_append, List.countP_cons] at hI ⊢
      simp only [hx] at hI ⊢
      simp at hI ⊢
      omega
  | stopOne q l₁ l₂ pc b inv hs =>
      unfold CrashBound at hI ⊢
      simpa [List.countP_append, List.countP_cons] using hI

theorem steps_crashBound {raises : Nat → Bool} {stops : Bool} {s t : PoolState}
    (h : Steps raises stops s t) (hI : CrashBound raises s) : CrashBound raises t := by
  induction h with
  | refl => exact hI
  | tail _ hstep ih => exact step_crashBound hstep ih

theorem raising_invocations_le {raises : Nat → Bool} {stops : Bool} {items : List Nat}
    {p : Nat} {s : PoolState} (hr : Steps raises stops (initPool items p) s) :
    s.invoked.countP (fun q => raises q.2) ≤ items.countP raises := by
  have hperm := steps_conserve hr
  rw [invokedItems_initPool, inflight_initPool] at hperm
  simp only [initPool, List.nil_append] at hperm
  have hcount := hperm.countP_eq raises
  rw [List.countP_append, List.countP_append] at hcount
  have hmap : (invokedItems s).countP raises = s.invoked.countP (fun q => raises q.2) := by
    rw [invokedItems, List.countP_map]
    rfl
  omega

/-- Drain lemma in the presence of raising actions: when fewer items raise
than there are workers, at least one worker survives to observe the empty
queue, so a completed run has still invoked the action on every item. -/
theorem drained_with_crashes {raises : Nat → Bool} {items : List Nat} {p : Nat} {s : PoolState}
    (hk : items.countP raises < p) (hr : Steps raises false (initPool items p) s)
    (hj : joined s) : (invokedItems s).Perm items := by
  have hlen : s.workers.length = p := by
    rw [steps_workers_length hr]
    simp [initPool]
  have hcb : CrashBound raises s := by
    refine steps_crashBound hr ?_
    unfold CrashBound
    simp [initPool, List.countP_replicate]
  have hcrash : s.workers.countP (fun w => decide (w.pc = PC.crashed)) < s.workers.length := by
    have := raising_invocations_le hr
    unfold CrashBound at hcb
    omega
  have hex : ∃ w ∈ s.workers, ¬ w.pc = PC.crashed := by
    by_contra hall
    push_neg at hall
    have : s.workers.countP (fun w => decide (w.pc = PC.crashed)) = s.workers.length := by
      rw [List.countP_eq_length]
      intro w hw
      simpa using hall w hw
    omega
  obtain ⟨w, hw, hnc⟩ := hex
  have hwdone : w.pc = PC.done := by
    rcases hj w hw with hd | hd
    · exact hd
    · exact absurd hd hnc
  have hqe : s.queue = [] :=
    steps_doneEmpty hr (initPool_flagDone items p)
      (fun hex => absurd hex (initPool_doneEmpty items p)) ⟨w, hw, hwdone⟩
  have hperm := steps_conserve hr
  rw [invokedItems_initPool, inflight_initPool, joined_inflight_nil hj, hqe] at hperm
  simpa [initPool] using hperm

theorem step_of_not_joined {raises : Nat → Bool} {stops : Bool} {s : PoolState}
    (h : ¬ joined s) : ∃ t, Step raises stops s t ∧ poolMeasure t < poolMeasure s := by
  unfold joined at h
  push_neg at h
  obtain ⟨w, hw, hnd, hnc⟩ := h
  obtain ⟨l₁, l₂, hsplit⟩ := List.append_of_mem hw
  obtain ⟨q, ws, inv⟩ := s
  simp only at hsplit
  subst hsplit
  obtain ⟨pc, b⟩ := w
  cases pc with
  | loopCheck =>
      cases b with
      | true =>
          refine ⟨_, Step.checkStop q l₁ l₂ inv, ?_⟩
          simp [poolMeasure, wWeight, List.sum_append]
      | false =>
          refine ⟨_, Step.checkGo q l₁ l₂ inv, ?_⟩
          simp [poolMeasure, wWeight, List.sum_append]
  | deq =>
      cases q with
      | nil =>
          refine ⟨_, Step.deqEmpty l₁ l₂ b inv, ?_⟩
          simp [poolMeasure, wWeight, List.sum_append]
      | cons x q' =>
          refine ⟨_, Step.deqItem x q' l₁ l₂ b inv, ?_⟩
          simp [poolMeasure, wWeight, List.sum_append]
          omega
  | work x =>
      cases hx : raises x with
      | true =>
          refine ⟨_, Step.workRaise x q l₁ l₂ b inv hx, ?_⟩
          simp [poolMeasure, wWeight, List.sum_append]
      | false =>
          refine ⟨_, Step.workOk x q l₁ l₂ b inv hx, ?_⟩
          simp [poolMeasure, wWeight, List.sum_append]
  | done => exact absurd rfl hnd
  | crashed => exact absurd rfl hnc

/-- From any pool state some interleaving reaches a state in which every
worker has terminated, i.e. `join_threads` can return. -/
theorem pool_progress (raises : Nat → Bool) (stops : Bool) (s : PoolState) :
    ∃ t, Steps raises stops s t ∧ joined t := by
  have H : ∀ n s, poolMeasure s ≤ n → ∃ t, Steps raises stops s t ∧ joined t := by
    intro n
    induction n with
    | zero =>
        intro s hs
        by_cases hj : joined s
        · exact ⟨s, Relation.ReflTransGen.refl, hj⟩
        · obtain ⟨t, _, hm⟩ := @step_of_not_joined raises stops s hj
          omega
    | succ n ih =>
        intro s hs
        by_cases hj : joined s
        · exact ⟨s, Relation.ReflTransGen.refl, hj⟩
        · obtain ⟨t, hst, hm⟩ := @step_of_not_joined raises stops s hj
          obtain ⟨u, htu, hju⟩ := ih t (by omega)
          exact ⟨u, Relation.ReflTransGen.head hst htu, hju⟩
  exact H (poolMeasure s) s (Nat.le_refl _)

theorem getElem?_append_cons_ne {α : Type} (l₁ l₂ : List α) (a b : α) {i : Nat}
    (h : i ≠ l₁.length) : (l₁ ++ a :: l₂)[i]? = (l₁ ++ b :: l₂)[i]? := by
  rcases Nat.lt_or_ge i l₁.length with hlt | hge
  · rw [List.getElem?_append, List.getElem?_append]
    simp [hlt]
  · have hgt : l₁.length < i := lt_of_le_of_ne hge (Ne.symm h)
    obtain ⟨k, hk⟩ : ∃ k, i - l₁.length = k + 1 := ⟨i - l₁.length - 1, by omega⟩
    rw [List.getElem?_append_right (by omega), List.getElem?_append_right (by omega), hk]
    simp

theorem getElem?_append_cons_self {α : Type} (l₁ l₂ : List α) (a : α) :
    (l₁ ++ a :: l₂)[l₁.length]? = some a := by
  rw [List.getElem?_append_right (Nat.le_refl _)]
  simp

theorem step_frozen {raises : Nat → Bool} {stops : Bool} {s t : PoolState} {i : Nat}
    (h : Step raises stops s t) (hs : StoppedAt i s) :
    StoppedAt i t ∧ invokedBy i t = invokedBy i s := by
  cases h with
  | checkStop q l₁ l₂ inv =>
      by_cases hi : i = l₁.length
      · subst hi
        refine ⟨Or.inr ?_, rfl⟩
        exact getElem?_append_cons_self l₁ l₂ _
      · unfold StoppedAt at hs ⊢
        rw [getElem?_append_cons_ne l₁ l₂ (⟨PC.done, true⟩ : WState) ⟨PC.loopCheck, true⟩ hi]
        exact ⟨hs, rfl⟩
  | checkGo q l₁ l₂ inv =>
      by_cases hi : i = l₁.length
      · exfalso
        subst hi
        unfold StoppedAt at hs
        rw [getElem?_append_cons_self l₁ l₂ _] at hs
        rcases hs with hs | hs <;> simp at hs
      · unfold StoppedAt at hs ⊢
        rw [getElem?_append_cons_ne l₁ l₂ (⟨PC.deq, false⟩ : WState) ⟨PC.loopCheck, false⟩ hi]
        exact ⟨hs, rfl⟩
  | deqEmpty l₁ l₂ b inv =>
      by_cases hi : i = l₁.length
      · exfalso
        subst hi
        unfold StoppedAt at hs
        rw [getElem?_append_cons_self l₁ l₂ _] at hs
        rcases hs with hs | hs <;> simp at hs
      · unfold StoppedAt at hs ⊢
        rw [getElem?_append_cons_ne l₁ l₂ (⟨PC.done, true⟩ : WState) ⟨PC.deq, b⟩ hi]
        exact ⟨hs, rfl⟩
  | deqItem x q l₁ l₂ b inv =>
      by_cases hi : i = l₁.length
      · exfalso
        subst hi
        unfold StoppedAt at hs
        rw [getElem?_append_cons_self l₁ l₂ _] at hs
        rcases hs with hs | hs <;> simp at hs
      · unfold StoppedAt at hs ⊢
        rw [getElem?_append_cons_ne l₁ l₂ (⟨PC.work x, b⟩ : WState) ⟨PC.deq, b⟩ hi]
        exact ⟨hs, rfl⟩
  | workOk x q l₁ l₂ b inv hx =>
      by_cases hi : i = l₁.length
      · exfalso
        subst hi
        unfold StoppedAt at hs
        rw [getElem?_append_cons_self l₁ l₂ _] at hs
        rcases hs with hs | hs <;> simp at hs
      · unfold StoppedAt at hs ⊢
        rw [getElem?_append_cons_ne l₁ l₂ (⟨PC.loopCheck, b⟩ : WState) ⟨PC.work x, b⟩ hi]
        refine ⟨hs, ?_⟩
        unfold invokedBy
        rw [List.filter_append]
        simp [Ne.symm hi]
  | workRaise x q l₁ l₂ b inv hx =>
      by_cases hi : i = l₁.length
      · exfalso
        subst hi
        unfold StoppedAt at hs
        rw [getElem?_append_cons_self l₁ l₂ _] at hs
        rcases hs with hs | hs <;> simp at hs
      · unfold StoppedAt at hs ⊢
        rw [getElem?_append_cons_ne l₁ l₂ (⟨PC.crashed, b⟩ : WState) ⟨PC.work x, b⟩ hi]
        refine ⟨hs, ?_⟩
        unfold invokedBy
        rw [List.filter_append]
        simp [Ne.symm hi]
  | stopOne q l₁ l₂ pc b inv hstops =>
      by_cases hi : i = l₁.length
      · subst hi
        unfold StoppedAt at hs
        rw [getElem?_append_cons_self l₁ l₂ _] at hs
        unfold StoppedAt
        rw [getElem?_append_cons_self l₁ l₂ _]
        rcases hs with hs | hs
        · injection hs with hs
          refine ⟨Or.inl ?_, rfl⟩
          rw [show pc = PC.loopCheck from congrArg WState.pc hs]
        · injection hs with hs
          refine ⟨Or.inr ?_, rfl⟩
          rw [show pc = PC.done from congrArg WState.pc hs]
      · unfold StoppedAt at hs ⊢
        rw [getElem?_append_cons_ne l₁ l₂ (⟨pc, true⟩ : WState) ⟨pc, b⟩ hi]
        exact ⟨hs, rfl⟩

theorem steps_frozen {raises : Nat → Bool} {stops : Bool} {s t : PoolState} {i : Nat}
    (h : Steps raises stops s t) (hs : StoppedAt i s) :
    StoppedAt i t ∧ invokedBy i t = invokedBy i s := by
  induction h with
  | refl => exact ⟨hs, rfl⟩
  | tail _ hstep ih =>
      obtain ⟨h1, h2⟩ := ih
      obtain ⟨h3, h4⟩ := step_frozen hstep h1
      exact ⟨h3, h4.trans h2⟩

end PoolLemmas

/-! ## Claim theorems for the worker pool -/

/-- C1: for every finite queue pre-populated with items and every pool size
`p ≥ 1`, once every worker launched by `start_threads` has finished (so
`join_threads` returns), the per-item action has been invoked on exactly the
enqueued items — each exactly once, in some order (`List.Perm`), regardless
of `p`.  The run uses no stop requests, and the actions do not raise. -/
theorem c1_exactly_once_drain (items : List Nat) (p : Nat) (s : PoolState)
    (hp : 1 ≤ p) (hr : Steps (fun _ => false) false (initPool items p) s)
    (hj : joined s) : (invokedItems s).Perm items :=
  drained hp hr hj (steps_noCrash hr (initPool_noCrash items p))

theorem c1_exactly_once_drain_witness :
    (invokedItems ⟨[], [⟨PC.done, true⟩], [(0, 5)]⟩).Perm [5] :=
  c1_exactly_once_drain [5] 1 ⟨[], [⟨PC.done, true⟩], [(0, 5)]⟩ (by decide)
    (Relation.ReflTransGen.head (Step.checkGo [5] [] [] [])
      (Relation.ReflTransGen.head (Step.deqItem 5 [] [] [] false [])
        (Relation.ReflTransGen.head (Step.workOk 5 [] [] [] false [] rfl)
          (Relation.ReflTransGen.head (Step.checkGo [] [] [] [(0, 5)])
            (Relation.ReflTransGen.head (Step.deqEmpty [] [] false [(0, 5)])
              Relation.ReflTransGen.refl)))))
    (by decide)

/-- C4, counterexample to the claim as stated: the worker does NOT catch an
exception raised by the action.  With one worker and queue `[1, 2]` where the
action raises on item `1`, the pool reaches a fully terminated state (so
`join` returns) in which the worker has crashed, item `2` is still in the
queue and its action was never invoked — the worker neither logged-and-moved
on nor continued draining. -/
theorem c4_counterexample :
    Steps (fun x => x == 1) false (initPool [1, 2] 1)
        ⟨[2], [⟨PC.crashed, false⟩], [(0, 1)]⟩ ∧
      joined (⟨[2], [⟨PC.crashed, false⟩], [(0, 1)]⟩ : PoolState) ∧
      ¬ (invokedItems ⟨[2], [⟨PC.crashed, false⟩], [(0, 1)]⟩).Perm [1, 2] := by
  refine ⟨?_, by decide, by decide⟩
  exact Relation.ReflTransGen.head (Step.checkGo [1, 2] [] [] [])
    (Relation.ReflTransGen.head (Step.deqItem 1 [2] [] [] false [])
      (Relation.ReflTransGen.head (Step.workRaise 1 [2] [] [] false [] rfl)
        Relation.ReflTransGen.refl))

/-- C4, amended: exceptions raised by the action are not caught by the worker
(the transport-level handlers live inside `make_api_request`, i.e. inside the
action); a raising invocation kills that one worker thread without
`task_done`.  Nevertheless `join_threads` can always return (some
interleaving terminates every worker from any reachable state), and whenever
fewer enqueued items raise than there are workers — e.g. 2 raising items
against 3 workers — every terminated run has still invoked the action on all
items exactly once, the raising invocations included. -/
theorem c4_uncaught_exceptions_drain (raises : Nat → Bool) (items : List Nat) (p : Nat) :
    (∀ s, Steps raises false (initPool items p) s →
      ∃ t, Steps raises false s t ∧ joined t) ∧
    (items.countP raises < p →
      ∀ s, Steps raises false (initPool items p) s → joined s →
        (invokedItems s).Perm items) :=
  ⟨fun s _ => pool_progress raises false s,
   fun hk s hr hj => drained_with_crashes hk hr hj⟩

theorem c4_uncaught_exceptions_drain_witness :
    (invokedItems ⟨[], [⟨PC.crashed, false⟩, ⟨PC.done, true⟩], [(0, 1), (1, 2)]⟩).Perm [1, 2] :=
  (c4_uncaught_exceptions_drain (fun x => x == 1) [1, 2] 2).2 (by decide)
    ⟨[], [⟨PC.crashed, false⟩, ⟨PC.done, true⟩], [(0, 1), (1, 2)]⟩
    (Relation.ReflTransGen.head (Step.checkGo [1, 2] [] [⟨PC.loopCheck, false⟩] [])
      (Relation.ReflTransGen.head (Step.deqItem 1 [2] [] [⟨PC.loopCheck, false⟩] false [])
        (Relation.ReflTransGen.head (Step.workRaise 1 [2] [] [⟨PC.loopCheck, false⟩] false [] rfl)
          (Relation.ReflTransGen.head
            (Step.checkGo [2] [⟨PC.crashed, false⟩] [] [(0, 1)])
            (Relation.ReflTransGen.head
              (Step.deqItem 2 [] [⟨PC.crashed, false⟩] [] false [(0, 1)])
              (Relation.ReflTransGen.head
                (Step.workOk 2 [] [⟨PC.crashed, false⟩] [] false [(0, 1)] rfl)
                (Relation.ReflTransGen.head
                  (Step.checkGo [] [⟨PC.crashed, false⟩] [] [(0, 1), (1, 2)])
                  (Relation.ReflTransGen.head
                    (Step.deqEmpty [⟨PC.crashed, false⟩] [] false [(0, 1), (1, 2)])
                    Relation.ReflTransGen.refl))))))))
    (by decide)

/-- C9: cooperative stop semantics of `stop_threads`.
(1) No dequeued item is abandoned: in any terminated run with stop requests
allowed (actions not raising), every item was either fully invoked or is
still in the queue — nothing is lost in flight.
(2) A worker that has observed the stop signal at the top of its loop never
dequeues again: its state stays at `loopCheck`/`done` with the flag set and
its invocation count never changes.
(3) Requesting stop repeatedly has the same effect as requesting it once. -/
theorem c9_stop_semantics :
    (∀ (items : List Nat) (p : Nat) (s : PoolState),
        Steps (fun _ => false) true (initPool items p) s → joined s →
          (invokedItems s ++ s.queue).Perm items) ∧
    (∀ (raises : Nat → Bool) (stops : Bool) (s t : PoolState) (i : Nat),
        StoppedAt i s → Steps raises stops s t →
          StoppedAt i t ∧ invokedBy i t = invokedBy i s) ∧
    (∀ s : PoolState, stopThreads (stopThreads s) = stopThreads s) := by
  refine ⟨?_, ?_, ?_⟩
  · intro items p s hr hj
    have hperm := steps_conserve hr
    have hnc : NoCrash s := steps_noCrash hr (initPool_noCrash items p)
    rw [invokedItems_initPool, inflight_initPool, joined_inflight_nil hj] at hperm
    simpa [initPool] using hperm
  · intro raises stops s t i hs hr
    exact steps_frozen hr hs
  · intro s
    simp [stopThreads, List.map_map]

theorem c9_stop_semantics_witness :
    (invokedItems (⟨[7], [⟨PC.done, true⟩], []⟩ : PoolState) ++
        (⟨[7], [⟨PC.done, true⟩], []⟩ : PoolState).queue).Perm [7] ∧
      (StoppedAt 0 (⟨[7], [⟨PC.done, true⟩], []⟩ : PoolState) ∧
        invokedBy 0 (⟨[7], [⟨PC.done, true⟩], []⟩ : PoolState) =
          invokedBy 0 (⟨[7], [⟨PC.loopCheck, true⟩], []⟩ : PoolState)) ∧
      stopThreads (stopThreads (initPool [] 1)) = stopThreads (initPool [] 1) := by
  refine ⟨?_, ?_, c9_stop_semantics.2.2 (initPool [] 1)⟩
  · refine c9_stop_semantics.1 [7] 1 ⟨[7], [⟨PC.done, true⟩], []⟩ ?_ (by decide)
    exact Relation.ReflTransGen.head (Step.stopOne [7] [] [] PC.loopCheck false [] rfl)
      (Relation.ReflTransGen.head (Step.checkStop [7] [] [] [])
        Relation.ReflTransGen.refl)
  · refine c9_stop_semantics.2.1 (fun _ => false) true
      ⟨[7], [⟨PC.loopCheck, true⟩], []⟩ ⟨[7], [⟨PC.done, true⟩], []⟩ 0 (Or.inl rfl) ?_
    exact Relation.ReflTransGen.head (Step.checkStop [7] [] [] [])
      Relation.ReflTransGen.refl

/-! ## Per-step lemmas for `comparePolicyPair` -/

section PolicyStepLemmas

theorem enabledStep_fst (inp : Policy) (st : Policy × Bool) :
    (enabledStep inp st).1 = { st.1 with enabled := inp.enabled } := by
  unfold enabledStep
  split
  · rfl
  · next h =>
      simp only [bne_iff_ne, ne_eq, not_not] at h
      rw [h]

theorem enabledStep_flag (inp : Policy) (st : Policy × Bool)
    (h : (enabledStep inp st).2 = false) : enabledStep inp st = st := by
  unfold enabledStep at h ⊢
  split at h
  · cases h
  · next hcond => rw [if_neg hcond]

theorem enabledStep_noop (inp : Policy) (st : Policy × Bool)
    (h : inp.enabled = st.1.enabled) : enabledStep inp st = st := by
  unfold enabledStep
  simp [h]

theorem scopeStep_fst (inp : Policy) (st : Policy × Bool) :
    (scopeStep inp st).1 = { st.1 with scope := inp.scope } := by
  unfold scopeStep
  split
  · rfl
  · next h =>
      simp only [bne_iff_ne, ne_eq, not_not] at h
      rw [h]

theorem scopeStep_flag (inp : Policy) (st : Policy × Bool)
    (h : (scopeStep inp st).2 = false) : scopeStep inp st = st := by
  unfold scopeStep at h ⊢
  split at h
  · cases h
  · next hcond => rw [if_neg hcond]

theorem scopeStep_noop (inp : Policy) (st : Policy × Bool)
    (h : inp.scope = st.1.scope) : scopeStep inp st = st := by
  unfold scopeStep
  simp [h]

theorem policyActionStep_fst (inp : Policy) (st : Policy × Bool) :
    (policyActionStep inp st).1 = { st.1 with policy_action := inp.policy_action } := by
  unfold policyActionStep
  split
  · rfl
  · next h =>
      simp only [bne_iff_ne, ne_eq, not_not] at h
      rw [h]

theorem policyActionStep_flag (inp : Policy) (st : Policy × Bool)
    (h : (policyActionStep inp st).2 = false) : policyActionStep inp st = st := by
  unfold policyActionStep at h ⊢
  split at h
  · cases h
  · next hcond => rw [if_neg hcond]

theorem policyActionStep_noop (inp : Policy) (st : Policy × Bool)
    (h : inp.policy_action = st.1.policy_action) : policyActionStep inp st = st := by
  unfold policyActionStep
  simp [h]

theorem conditionIdStep_fst (inp : Policy) (st : Policy × Bool) :
    (conditionIdStep inp st).1 = { st.1 with condition_id := inp.condition_id } := by
  unfold conditionIdStep
  split
  · rfl
  · next h =>
      simp only [bne_iff_ne, ne_eq, not_not] at h
      rw [h]

theorem conditionIdStep_flag (inp : Policy) (st : Policy × Bool)
    (h : (conditionIdStep inp st).2 = false) : conditionIdStep inp st = st := by
  unfold conditionIdStep at h ⊢
  split at h
  · cases h
  · next hcond => rw [if_neg hcond]

theorem conditionIdStep_noop (inp : Policy) (st : Policy × Bool)
    (h : inp.condition_id = st.1.condition_id) : conditionIdStep inp st = st := by
  unfold conditionIdStep
  simp [h]

theorem waiverRequestConfigStep_fst (inp : Policy) (st : Policy × Bool) :
    (waiverRequestConfigStep inp st).1 =
      { st.1 with waiver_request_config := inp.waiver_request_config } := by
  unfold waiverRequestConfigStep
  split
  · rfl
  · next h =>
      simp only [bne_iff_ne, ne_eq, not_not] at h
      rw [h]

theorem waiverRequestConfigStep_flag (inp : Policy) (st : Policy × Bool)
    (h : (waiverRequestConfigStep inp st).2 = false) : waiverRequestConfigStep inp st = st := by
  unfold waiverRequestConfigStep at h ⊢
  split at h
  · cases h
  · next hcond => rw [if_neg hcond]

theorem waiverRequestConfigStep_noop (inp : Policy) (st : Policy × Bool)
    (h : inp.waiver_request_config = st.1.waiver_request_config) :
    waiverRequestConfigStep inp st = st := by
  unfold waiverRequestConfigStep
  simp [h]

theorem repoExcludeStep_fst (inp : Policy) (st : Policy × Bool) :
    ∃ v, (repoExcludeStep inp st).1 = { st.1 with repo_exclude := v } ∧
      OptSetPost inp.repo_exclude v := by
  unfold repoExcludeStep
  rcases hi : inp.repo_exclude with _ | iv
  · exact ⟨st.1.repo_exclude, rfl, trivial⟩
  · rcases hc : st.1.repo_exclude with _ | cv
    · refine ⟨some iv, ?_, ⟨iv, rfl, rfl⟩⟩
      simp [hi, hc]
    · by_cases hset : iv.toFinset = cv.toFinset
      · refine ⟨some cv, ?_, ⟨cv, rfl, hset.symm⟩⟩
        simp [hi, hc, hset]
        rw [← hc]
      · refine ⟨some iv, ?_, ⟨iv, rfl, rfl⟩⟩
        simp [hi, hc, hset]

theorem repoExcludeStep_flag (inp : Policy) (st : Policy × Bool)
    (h : (repoExcludeStep inp st).2 = false) : repoExcludeStep inp st = st := by
  unfold repoExcludeStep at h ⊢
  rcases hi : inp.repo_exclude with _ | iv <;>
    rcases hc : st.1.repo_exclude with _ | cv <;>
      simp_all
  by_cases hset : iv.toFinset = cv.toFinset <;> simp_all

theorem repoExcludeStep_noop (inp : Policy) (st : Policy × Bool)
    (h : OptSetOk inp.repo_exclude st.1.repo_exclude) : repoExcludeStep inp st = st := by
  unfold repoExcludeStep
  rcases hi : inp.repo_exclude with _ | iv
  · simp [hi]
  · rcases hc : st.1.repo_exclude with _ | cv
    · rw [hi, hc] at h
      cases h
    · rw [hi, hc] at h
      unfold OptSetOk at h
      simp [hi, hc, h]

theorem pkgTypesIncludeStep_fst (inp : Policy) (st : Policy × Bool) :
    ∃ v, (pkgTypesIncludeStep inp st).1 = { st.1 with pkg_types_include := v } ∧
      OptSetPost inp.pkg_types_include v := by
  unfold pkgTypesIncludeStep
  rcases hi : inp.pkg_types_include with _ | iv
  · exact ⟨st.1.pkg_types_include, rfl, trivial⟩
  · rcases hc : st.1.pkg_types_include with _ | cv
    · refine ⟨some iv, ?_, ⟨iv, rfl, rfl⟩⟩
      simp [hi, hc]
    · by_cases hset : iv.toFinset = cv.toFinset
      · refine ⟨some cv, ?_, ⟨cv, rfl, hset.symm⟩⟩
        simp [hi, hc, hset]
        rw [← hc]
      · refine ⟨some iv, ?_, ⟨iv, rfl, rfl⟩⟩
        simp [hi, hc, hset]

theorem pkgTypesIncludeStep_flag (inp : Policy) (st : Policy × Bool)
    (h : (pkgTypesIncludeStep inp st).2 = false) : pkgTypesIncludeStep inp st = st := by
  unfold pkgTypesIncludeStep at h ⊢
  rcases hi : inp.pkg_types_include with _ | iv <;>
    rcases hc : st.1.pkg_types_include with _ | cv <;>
      simp_all
  by_cases hset : iv.toFinset = cv.toFinset <;> simp_all

theorem pkgTypesIncludeStep_noop (inp : Policy) (st : Policy × Bool)
    (h : OptSetOk inp.pkg_types_include st.1.pkg_types_include) : pkgTypesIncludeStep inp st = st := by
  unfold pkgTypesIncludeStep
  rcases hi : inp.pkg_types_include with _ | iv
  · simp [hi]
  · rcases hc : st.1.pkg_types_include with _ | cv
    · rw [hi, hc] at h
      cases h
    · rw [hi, hc] at h
      unfold OptSetOk at h
      simp [hi, hc, h]

theorem notifyEmailsStep_fst (inp : Policy) (st : Policy × Bool) :
    ∃ v, (notifyEmailsStep inp st).1 = { st.1 with notify_emails := v } ∧
      OptSetPost inp.notify_emails v := by
  unfold notifyEmailsStep
  rcases hi : inp.notify_emails with _ | iv
  · exact ⟨st.1.notify_emails, rfl, trivial⟩
  · rcases hc : st.1.notify_emails with _ | cv
    · refine ⟨some iv, ?_, ⟨iv, rfl, rfl⟩⟩
      simp [hi, hc]
    · by_cases hset : iv.toFinset = cv.toFinset
      · refine ⟨some cv, ?_, ⟨cv, rfl, hset.symm⟩⟩
        simp [hi, hc, hset]
        rw [← hc]
      · refine ⟨some iv, ?_, ⟨iv, rfl, rfl⟩⟩
        simp [hi, hc, hset]

theorem notifyEmailsStep_flag (inp : Policy) (st : Policy × Bool)
    (h : (notifyEmailsStep inp st).2 = false) : notifyEmailsStep inp st = st := by
  unfold notifyEmailsStep at h ⊢
  rcases hi : inp.notify_emails with _ | iv <;>
    rcases hc : st.1.notify_emails with _ | cv <;>
      simp_all
  by_cases hset : iv.toFinset = cv.toFinset <;> simp_all

theorem notifyEmailsStep_noop (inp : Policy) (st : Policy × Bool)
    (h : OptSetOk inp.notify_emails st.1.notify_emails) : notifyEmailsStep inp st = st := by
  unfold notifyEmailsStep
  rcases hi : inp.notify_emails with _ | iv
  · simp [hi]
  · rcases hc : st.1.notify_emails with _ | cv
    · rw [hi, hc] at h
      cases h
    · rw [hi, hc] at h
      unfold OptSetOk at h
      simp [hi, hc, h]

theorem decisionOwnersStep_fst (inp : Policy) (st : Policy × Bool) :
    ∃ v, (decisionOwnersStep inp st).1 = { st.1 with decision_owners := v } ∧
      OptSetPost inp.decision_owners v := by
  unfold decisionOwnersStep
  rcases hi : inp.decision_owners with _ | iv
  · exact ⟨st.1.decision_owners, rfl, trivial⟩
  · rcases hc : st.1.decision_owners with _ | cv
    · refine ⟨some iv, ?_, ⟨iv, rfl, rfl⟩⟩
      simp [hi, hc]
    · by_cases hset : iv.toFinset = cv.toFinset
      · refine ⟨some cv, ?_, ⟨cv, rfl, hset.symm⟩⟩
        simp [hi, hc, hset]
        rw [← hc]
      · refine ⟨some iv, ?_, ⟨iv, rfl, rfl⟩⟩
        simp [hi, hc, hset]

theorem decisionOwnersStep_flag (inp : Policy) (st : Policy × Bool)
    (h : (decisionOwnersStep inp st).2 = false) : decisionOwnersStep inp st = st := by
  unfold decisionOwnersStep at h ⊢
  rcases hi : inp.decision_owners with _ | iv <;>
    rcases hc : st.1.decision_owners with _ | cv <;>
      simp_all
  by_cases hset : iv.toFinset = cv.toFinset <;> simp_all

theorem decisionOwnersStep_noop (inp : Policy) (st : Policy × Bool)
    (h : OptSetOk inp.decision_owners st.1.decision_owners) : decisionOwnersStep inp st = st := by
  unfold decisionOwnersStep
  rcases hi : inp.decision_owners with _ | iv
  · simp [hi]
  · rcases hc : st.1.decision_owners with _ | cv
    · rw [hi, hc] at h
      cases h
    · rw [hi, hc] at h
      unfold OptSetOk at h
      simp [hi, hc, h]

theorem repoIncludeStep_fst (inp : Policy) (st : Policy × Bool) (st' : Policy × Bool)
    (h : repoIncludeStep inp st = .ok st') :
    ∃ v, st'.1 = { st.1 with repo_include := v } ∧ OptSetPost inp.repo_include v := by
  unfold repoIncludeStep at h
  rcases hi : inp.repo_include with _ | iv
  · rw [hi] at h
    simp at h
    exact ⟨st.1.repo_include, by rw [← h], trivial⟩
  · rcases hc : st.1.repo_include with _ | cv
    · rcases he : inp.repo_exclude with _ | ev
      · rw [hi, hc, he] at h
        simp at h
      · rw [hi, hc, he] at h
        simp only [] at h
        by_cases hset : iv.toFinset = ev.toFinset
        · refine ⟨some ev, ?_, ⟨ev, rfl, hset.symm⟩⟩
          simp [hset] at h
          rw [← h]
        · refine ⟨some iv, ?_, ⟨iv, rfl, rfl⟩⟩
          simp [hset] at h
          rw [← h]
    · rw [hi, hc] at h
      by_cases hset : iv.toFinset = cv.toFinset
      · refine ⟨some cv, ?_, ⟨cv, rfl, hset.symm⟩⟩
        simp [hset, hc] at h
        rw [← h, ← hc]
      · refine ⟨some iv, ?_, ⟨iv, rfl, rfl⟩⟩
        simp [hset, hc] at h
        rw [← h]

theorem repoIncludeStep_flag (inp : Policy) (st : Policy × Bool) (st' : Policy × Bool)
    (h : repoIncludeStep inp st = .ok st') (hf : st'.2 = false) : st' = st := by
  unfold repoIncludeStep at h
  rcases hi : inp.repo_include with _ | iv
  · rw [hi] at h
    simp at h
    rw [← h]
  · rcases hc : st.1.repo_include with _ | cv
    · rcases he : inp.repo_exclude with _ | ev
      · rw [hi, hc, he] at h
        simp at h
      · rw [hi, hc, he] at h
        simp only [] at h
        by_cases hset : iv.toFinset = ev.toFinset <;> simp [hset] at h <;>
          rw [← h] at hf <;> simp at hf
    · rw [hi, hc] at h
      by_cases hset : iv.toFinset = cv.toFinset
      · simp [hset, hc] at h
        rw [← h]
      · simp [hset, hc] at h
        rw [← h] at hf
        simp at hf

theorem repoIncludeStep_noop (inp : Policy) (st : Policy × Bool)
    (h : OptSetOk inp.repo_include st.1.repo_include) : repoIncludeStep inp st = .ok st := by
  unfold repoIncludeStep
  rcases hi : inp.repo_include with _ | iv
  · simp [hi]
  · rcases hc : st.1.repo_include with _ | cv
    · rw [hi, hc] at h
      cases h
    · rw [hi, hc] at h
      unfold OptSetOk at h
      simp [hi, hc, h]

theorem waiversStep_eq_cons (inp : Policy) (st : Policy × Bool) (w : Waiver) (ws : List Waiver)
    (cws : List Waiver) (hi : inp.waivers = some (w :: ws)) (hc : st.1.waivers = some cws) :
    waiversStep inp st =
      if ((w :: ws).any fun x => waiverTriggers cws x) = true then
        Except.ok ({ st.1 with waivers := some (w :: ws) }, true)
      else Except.ok st := by
  unfold waiversStep
  rw [hi, hc]

theorem waiversStep_eq_cons_none (inp : Policy) (st : Policy × Bool) (w : Waiver)
    (ws : List Waiver) (hi : inp.waivers = some (w :: ws)) (hc : st.1.waivers = none) :
    waiversStep inp st = Except.error "KeyError: waivers" := by
  unfold waiversStep
  rw [hi, hc]

theorem waiversStep_fst (inp : Policy) (st : Policy × Bool) (st' : Policy × Bool)
    (h : waiversStep inp st = .ok st') :
    ∃ v, st'.1 = { st.1 with waivers := v } ∧ WaiversPost inp.waivers v := by
  rcases hi : inp.waivers with _ | ws
  · unfold waiversStep at h
    rw [hi] at h
    simp at h
    exact ⟨st.1.waivers, by rw [← h], trivial⟩
  · cases ws with
    | nil =>
        unfold waiversStep at h
        rw [hi] at h
        simp at h
        exact ⟨st.1.waivers, by rw [← h], trivial⟩
    | cons w ws =>
        rcases hc : st.1.waivers with _ | cws
        · rw [waiversStep_eq_cons_none inp st w ws hi hc] at h
          cases h
        · rw [waiversStep_eq_cons inp st w ws cws hi hc] at h
          by_cases hany : ((w :: ws).any fun x => waiverTriggers cws x) = true
          · rw [if_pos hany] at h
            injection h with h
            refine ⟨some (w :: ws), ?_, Or.inl rfl⟩
            rw [← h]
          · rw [if_neg hany] at h
            injection h with h
            have hfalse : ((w :: ws).any fun x => waiverTriggers cws x) = false := by
              rw [← Bool.not_eq_true]
              exact hany
            refine ⟨st.1.waivers, ?_, Or.inr ⟨cws, hc, hfalse⟩⟩
            rw [← h]

theorem waiversStep_flag (inp : Policy) (st : Policy × Bool) (st' : Policy × Bool)
    (h : waiversStep inp st = .ok st') (hf : st'.2 = false) : st' = st := by
  rcases hi : inp.waivers with _ | ws
  · unfold waiversStep at h
    rw [hi] at h
    simp at h
    rw [← h]
  · cases ws with
    | nil =>
        unfold waiversStep at h
        rw [hi] at h
        simp at h
        rw [← h]
    | cons w ws =>
        rcases hc : st.1.waivers with _ | cws
        · rw [waiversStep_eq_cons_none inp st w ws hi hc] at h
          cases h
        · rw [waiversStep_eq_cons inp st w ws cws hi hc] at h
          by_cases hany : ((w :: ws).any fun x => waiverTriggers cws x) = true
          · rw [if_pos hany] at h
            injection h with h
            rw [← h] at hf
            simp at hf
          · rw [if_neg hany] at h
            injection h with h
            rw [← h]

theorem waiversStep_noop (inp : Policy) (st : Policy × Bool)
    (h : WaiversOk inp.waivers st.1.waivers) : waiversStep inp st = .ok st := by
  rcases hi : inp.waivers with _ | ws
  · unfold waiversStep
    simp [hi]
  · cases ws with
    | nil =>
        unfold waiversStep
        simp [hi]
    | cons w ws =>
        rcases hc : st.1.waivers with _ | cws
        · rw [hi, hc] at h
          cases h
        · rw [hi, hc] at h
          unfold WaiversOk at h
          rw [waiversStep_eq_cons inp st w ws cws hi hc, if_neg]
          rw [h]
          simp

theorem labelWaiversStep_eq_cons (inp : Policy) (st : Policy × Bool) (w : LabelWaiver) (ws : List LabelWaiver)
    (cws : List LabelWaiver) (hi : inp.label_waivers = some (w :: ws)) (hc : st.1.label_waivers = some cws) :
    labelWaiversStep inp st =
      if ((w :: ws).any fun x => labelWaiverTriggers cws x) = true then
        Except.ok ({ st.1 with label_waivers := some (w :: ws) }, true)
      else Except.ok st := by
  unfold labelWaiversStep
  rw [hi, hc]

theorem labelWaiversStep_eq_cons_none (inp : Policy) (st : Policy × Bool) (w : LabelWaiver)
    (ws : List LabelWaiver) (hi : inp.label_waivers = some (w :: ws)) (hc : st.1.label_waivers = none) :
    labelWaiversStep inp st = Except.error "KeyError: label_waivers" := by
  unfold labelWaiversStep
  rw [hi, hc]

theorem labelWaiversStep_fst (inp : Policy) (st : Policy × Bool) (st' : Policy × Bool)
    (h : labelWaiversStep inp st = .ok st') :
    ∃ v, st'.1 = { st.1 with label_waivers := v } ∧ LabelWaiversPost inp.label_waivers v := by
  rcases hi : inp.label_waivers with _ | ws
  · unfold labelWaiversStep at h
    rw [hi] at h
    simp at h
    exact ⟨st.1.label_waivers, by rw [← h], trivial⟩
  · cases ws with
    | nil =>
        unfold labelWaiversStep at h
        rw [hi] at h
        simp at h
        exact ⟨st.1.label_waivers, by rw [← h], trivial⟩
    | cons w ws =>
        rcases hc : st.1.label_waivers with _ | cws
        · rw [labelWaiversStep_eq_cons_none inp st w ws hi hc] at h
          cases h
        · rw [labelWaiversStep_eq_cons inp st w ws cws hi hc] at h
          by_cases hany : ((w :: ws).any fun x => labelWaiverTriggers cws x) = true
          · rw [if_pos hany] at h
            injection h with h
            refine ⟨some (w :: ws), ?_, Or.inl rfl⟩
            rw [← h]
          · rw [if_neg hany] at h
            injection h with h
            have hfalse : ((w :: ws).any fun x => labelWaiverTriggers cws x) = false := by
              rw [← Bool.not_eq_true]
              exact hany
            refine ⟨st.1.label_waivers, ?_, Or.inr ⟨cws, hc, hfalse⟩⟩
            rw [← h]

theorem labelWaiversStep_flag (inp : Policy) (st : Policy × Bool) (st' : Policy × Bool)
    (h : labelWaiversStep inp st = .ok st') (hf : st'.2 = false) : st' = st := by
  rcases hi : inp.label_waivers with _ | ws
  · unfold labelWaiversStep at h
    rw [hi] at h
    simp at h
    rw [← h]
  · cases ws with
    | nil =>
        unfold labelWaiversStep at h
        rw [hi] at h
        simp at h
        rw [← h]
    | cons w ws =>
        rcases hc : st.1.label_waivers with _ | cws
        · rw [labelWaiversStep_eq_cons_none inp st w ws hi hc] at h
          cases h
        · rw [labelWaiversStep_eq_cons inp st w ws cws hi hc] at h
          by_cases hany : ((w :: ws).any fun x => labelWaiverTriggers cws x) = true
          · rw [if_pos hany] at h
            injection h with h
            rw [← h] at hf
            simp at hf
          · rw [if_neg hany] at h
            injection h with h
            rw [← h]

theorem labelWaiversStep_noop (inp : Policy) (st : Policy × Bool)
    (h : LabelWaiversOk inp.label_waivers st.1.label_waivers) : labelWaiversStep inp st = .ok st := by
  rcases hi : inp.label_waivers with _ | ws
  · unfold labelWaiversStep
    simp [hi]
  · cases ws with
    | nil =>
        unfold labelWaiversStep
        simp [hi]
    | cons w ws =>
        rcases hc : st.1.label_waivers with _ | cws
        · rw [hi, hc] at h
          cases h
        · rw [hi, hc] at h
          unfold LabelWaiversOk at h
          rw [labelWaiversStep_eq_cons inp st w ws cws hi hc, if_neg]
          rw [h]
          simp

theorem comparePolicyPair_inv (inp cur : Policy) (st' : Policy × Bool)
    (h : comparePolicyPair inp cur = .ok st') :
    ∃ st4 st8 st9,
      repoIncludeStep inp (repoExcludeStep inp (scopeStep inp (enabledStep inp (cur, false)))) = .ok st4 ∧
      waiversStep inp (conditionIdStep inp (policyActionStep inp (pkgTypesIncludeStep inp st4))) = .ok st8 ∧
      labelWaiversStep inp st8 = .ok st9 ∧
      st' = decisionOwnersStep inp (waiverRequestConfigStep inp (notifyEmailsStep inp st9)) := by
  unfold comparePolicyPair at h
  rcases h4 : repoIncludeStep inp (repoExcludeStep inp (scopeStep inp (enabledStep inp (cur, false)))) with e | st4
  · rw [h4] at h
    cases h
  · rw [h4] at h
    simp only [] at h
    rcases h8 : waiversStep inp (conditionIdStep inp (policyActionStep inp (pkgTypesIncludeStep inp st4))) with e | st8
    · rw [h8] at h
      cases h
    · rw [h8] at h
      simp only [] at h
      rcases h9 : labelWaiversStep inp st8 with e | st9
      · rw [h9] at h
        cases h
      · rw [h9] at h
        simp only [] at h
        injection h with h
        exact ⟨st4, st8, st9, rfl, h8, h9, h.symm⟩

theorem comparePolicyPair_eq (inp cur : Policy) (st4 st8 st9 : Policy × Bool)
    (h4 : repoIncludeStep inp (repoExcludeStep inp (scopeStep inp (enabledStep inp (cur, false)))) = .ok st4)
    (h8 : waiversStep inp (conditionIdStep inp (policyActionStep inp (pkgTypesIncludeStep inp st4))) = .ok st8)
    (h9 : labelWaiversStep inp st8 = .ok st9) :
    comparePolicyPair inp cur =
      .ok (decisionOwnersStep inp (waiverRequestConfigStep inp (notifyEmailsStep inp st9))) := by
  unfold comparePolicyPair
  simp only [h4, h8, h9]

/-- When every field comparison of the source finds nothing to change, the
matched pair produces no mutation and no update flag. -/
theorem comparePolicyPair_noop (inp cur : Policy)
    (h_en : inp.enabled = cur.enabled) (h_sc : inp.scope = cur.scope)
    (h_re : OptSetOk inp.repo_exclude cur.repo_exclude)
    (h_ri : OptSetOk inp.repo_include cur.repo_include)
    (h_pt : OptSetOk inp.pkg_types_include cur.pkg_types_include)
    (h_pa : inp.policy_action = cur.policy_action)
    (h_ci : inp.condition_id = cur.condition_id)
    (h_w : WaiversOk inp.waivers cur.waivers)
    (h_lw : LabelWaiversOk inp.label_waivers cur.label_waivers)
    (h_ne : OptSetOk inp.notify_emails cur.notify_emails)
    (h_wrc : inp.waiver_request_config = cur.waiver_request_config)
    (h_do : OptSetOk inp.decision_owners cur.decision_owners) :
    comparePolicyPair inp cur = .ok (cur, false) := by
  have e1 : enabledStep inp (cur, false) = (cur, false) := enabledStep_noop inp (cur, false) h_en
  have e2 : scopeStep inp (cur, false) = (cur, false) := scopeStep_noop inp (cur, false) h_sc
  have e3 : repoExcludeStep inp (cur, false) = (cur, false) :=
    repoExcludeStep_noop inp (cur, false) h_re
  have h4 : repoIncludeStep inp (repoExcludeStep inp (scopeStep inp (enabledStep inp (cur, false)))) = .ok (cur, false) := by
    rw [e1, e2, e3]
    exact repoIncludeStep_noop inp (cur, false) h_ri
  have e5 : pkgTypesIncludeStep inp (cur, false) = (cur, false) :=
    pkgTypesIncludeStep_noop inp (cur, false) h_pt
  have e6 : policyActionStep inp (cur, false) = (cur, false) :=
    policyActionStep_noop inp (cur, false) h_pa
  have e7 : conditionIdStep inp (cur, false) = (cur, false) :=
    conditionIdStep_noop inp (cur, false) h_ci
  have h8 : waiversStep inp (conditionIdStep inp (policyActionStep inp (pkgTypesIncludeStep inp (cur, false)))) = .ok (cur, false) := by
    rw [e5, e6, e7]
    exact waiversStep_noop inp (cur, false) h_w
  have h9 : labelWaiversStep inp (cur, false) = .ok (cur, false) :=
    labelWaiversStep_noop inp (cur, false) h_lw
  rw [comparePolicyPair_eq inp cur (cur, false) (cur, false) (cur, false) h4 h8 h9,
    notifyEmailsStep_noop inp (cur, false) h_ne,
    waiverRequestConfigStep_noop inp (cur, false) h_wrc,
    decisionOwnersStep_noop inp (cur, false) h_do]

/-- Post-state of one matched pair comparison: the mutated current policy
agrees with desired on every scalar field, carries set-equal values on the
optional set fields present in desired, satisfies the waiver
characterizations, keeps its `name` and `id`, and equals the original when
the update flag is clear. -/
theorem comparePolicyPair_spec (inp cur : Policy) (st' : Policy × Bool)
    (h : comparePolicyPair inp cur = .ok st') :
    st'.1.name = cur.name ∧ st'.1.id = cur.id ∧
    st'.1.enabled = inp.enabled ∧ st'.1.scope = inp.scope ∧
    st'.1.policy_action = inp.policy_action ∧ st'.1.condition_id = inp.condition_id ∧
    st'.1.waiver_request_config = inp.waiver_request_config ∧
    OptSetPost inp.repo_exclude st'.1.repo_exclude ∧
    OptSetPost inp.repo_include st'.1.repo_include ∧
    OptSetPost inp.pkg_types_include st'.1.pkg_types_include ∧
    OptSetPost inp.notify_emails st'.1.notify_emails ∧
    OptSetPost inp.decision_owners st'.1.decision_owners ∧
    WaiversPost inp.waivers st'.1.waivers ∧
    LabelWaiversPost inp.label_waivers st'.1.label_waivers ∧
    (st'.2 = false → st'.1 = cur) := by
  obtain ⟨st4, st8, st9, h4, h8, h9, hst⟩ := comparePolicyPair_inv inp cur st' h
  have f1 := enabledStep_fst inp (cur, false)
  have f2 := scopeStep_fst inp (enabledStep inp (cur, false))
  obtain ⟨v3, f3, p3⟩ := repoExcludeStep_fst inp (scopeStep inp (enabledStep inp (cur, false)))
  obtain ⟨v4, f4, p4⟩ := repoIncludeStep_fst inp
    (repoExcludeStep inp (scopeStep inp (enabledStep inp (cur, false)))) st4 h4
  obtain ⟨v5, f5, p5⟩ := pkgTypesIncludeStep_fst inp st4
  have f6 := policyActionStep_fst inp (pkgTypesIncludeStep inp st4)
  have f7 := conditionIdStep_fst inp (policyActionStep inp (pkgTypesIncludeStep inp st4))
  obtain ⟨v8, f8, p8⟩ := waiversStep_fst inp
    (conditionIdStep inp (policyActionStep inp (pkgTypesIncludeStep inp st4))) st8 h8
  obtain ⟨v9, f9, p9⟩ := labelWaiversStep_fst inp st8 st9 h9
  obtain ⟨v10, f10, p10⟩ := notifyEmailsStep_fst inp st9
  have f11 := waiverRequestConfigStep_fst inp (notifyEmailsStep inp st9)
  obtain ⟨v12, f12, p12⟩ := decisionOwnersStep_fst inp (waiverRequestConfigStep inp (notifyEmailsStep inp st9))
  have hshape : st'.1 = { cur with
      enabled := inp.enabled, scope := inp.scope, repo_exclude := v3, repo_include := v4,
      pkg_types_include := v5, policy_action := inp.policy_action,
      condition_id := inp.condition_id, waivers := v8, label_waivers := v9,
      notify_emails := v10, waiver_request_config := inp.waiver_request_config,
      decision_owners := v12 } := by
    rw [hst, f12, f11, f10, f9, f8, f7, f6, f5, f4, f3, f2, f1]
  refine ⟨by rw [hshape], by rw [hshape], by rw [hshape], by rw [hshape], by rw [hshape],
    by rw [hshape], by rw [hshape], by rw [hshape]; exact p3, by rw [hshape]; exact p4,
    by rw [hshape]; exact p5, by rw [hshape]; exact p10, by rw [hshape]; exact p12,
    by rw [hshape]; exact p8, by rw [hshape]; exact p9, ?_⟩
  intro hf
  have d12 := decisionOwnersStep_flag inp (waiverRequestConfigStep inp (notifyEmailsStep inp st9))
    (by rw [← hst]; exact hf)
  have g2 : st' = waiverRequestConfigStep inp (notifyEmailsStep inp st9) := hst.trans d12
  have d11 := waiverRequestConfigStep_flag inp (notifyEmailsStep inp st9) (by rw [← g2]; exact hf)
  have g3 : st' = notifyEmailsStep inp st9 := g2.trans d11
  have d10 := notifyEmailsStep_flag inp st9 (by rw [← g3]; exact hf)
  have g4 : st' = st9 := g3.trans d10
  have d9 := labelWaiversStep_flag inp st8 st9 h9 (by rw [← g4]; exact hf)
  have g5 : st' = st8 := g4.trans d9
  have d8 := waiversStep_flag inp (conditionIdStep inp (policyActionStep inp (pkgTypesIncludeStep inp st4))) st8 h8
    (by rw [← g5]; exact hf)
  have g6 : st' = conditionIdStep inp (policyActionStep inp (pkgTypesIncludeStep inp st4)) := g5.trans d8
  have d7 := conditionIdStep_flag inp (policyActionStep inp (pkgTypesIncludeStep inp st4)) (by rw [← g6]; exact hf)
  have g7 : st' = policyActionStep inp (pkgTypesIncludeStep inp st4) := g6.trans d7
  have d6 := policyActionStep_flag inp (pkgTypesIncludeStep inp st4) (by rw [← g7]; exact hf)
  have g8 : st' = pkgTypesIncludeStep inp st4 := g7.trans d6
  have d5 := pkgTypesIncludeStep_flag inp st4 (by rw [← g8]; exact hf)
  have g9 : st' = st4 := g8.trans d5
  have d4 := repoIncludeStep_flag inp (repoExcludeStep inp (scopeStep inp (enabledStep inp (cur, false)))) st4 h4
    (by rw [← g9]; exact hf)
  have g10 : st' = repoExcludeStep inp (scopeStep inp (enabledStep inp (cur, false))) := g9.trans d4
  have d3 := repoExcludeStep_flag inp (scopeStep inp (enabledStep inp (cur, false))) (by rw [← g10]; exact hf)
  have g11 : st' = scopeStep inp (enabledStep inp (cur, false)) := g10.trans d3
  have d2 := scopeStep_flag inp (enabledStep inp (cur, false)) (by rw [← g11]; exact hf)
  have g12 : st' = enabledStep inp (cur, false) := g11.trans d2
  have d1 := enabledStep_flag inp (cur, false) (by rw [← g12]; exact hf)
  have g13 : st' = (cur, false) := g12.trans d1
  rw [g13]

theorem filter_key_eq_self {α : Type} (key : α → String) :
    ∀ (l : List α), ((l.map key).Nodup) → ∀ a ∈ l,
      l.filter (fun x => key x == key a) = [a]
  | [], _, a, ha => absurd ha (List.not_mem_nil a)
  | b :: l, h, a, ha => by
      simp only [List.map_cons, List.nodup_cons] at h
      rcases List.mem_cons.mp ha with hab | hal
      · subst hab
        rw [List.filter_cons]
        simp only [beq_self_eq_true, if_pos]
        have : l.filter (fun x => key x == key a) = [] := by
          rw [List.filter_eq_nil_iff]
          intro x hx
          simp only [beq_iff_eq]
          intro hkey
          exact h.1 (hkey ▸ List.mem_map_of_mem key hx)
        rw [this]
      · rw [List.filter_cons]
        have hne : (key b == key a) = false := by
          simp only [beq_eq_false_iff_ne, ne_eq]
          intro hkey
          exact h.1 (hkey ▸ List.mem_map_of_mem key hal)
        simp only [hne]
        simp only [Bool.false_eq_true, if_neg, not_false_iff]
        exact filter_key_eq_self key l h.2 a hal

theorem any_waiverTriggers_self {ws : List Waiver}
    (h : (ws.map (fun w => w.id)).Nodup) :
    (ws.any fun w => waiverTriggers ws w) = false := by
  rw [List.any_eq_false]
  intro w hw
  unfold waiverTriggers
  rw [filter_key_eq_self (fun w => w.id) ws h w hw]
  simp [waiverAllFieldsDiffer]

theorem any_labelWaiverTriggers_self {ws : List LabelWaiver}
    (h : (ws.map (fun w => w.id)).Nodup) :
    (ws.any fun w => labelWaiverTriggers ws w) = false := by
  rw [List.any_eq_false]
  intro w hw
  unfold labelWaiverTriggers
  rw [filter_key_eq_self (fun w => w.id) ws h w hw]
  simp [labelWaiverAllFieldsDiffer]

theorem OptSetOk_refl (v : Option (List String)) : OptSetOk v v := by
  cases v <;> simp [OptSetOk]

/-- A freshly created entity compared against itself yields no change: the
comparison of a just-created policy is stable. -/
theorem comparePolicyPair_self (inp : Policy) (hw : WaiverIdsNodup inp) :
    comparePolicyPair inp inp = .ok (inp, false) := by
  refine comparePolicyPair_noop inp inp rfl rfl (OptSetOk_refl _) (OptSetOk_refl _)
    (OptSetOk_refl _) rfl rfl ?_ ?_ (OptSetOk_refl _) rfl (OptSetOk_refl _)
  · rcases hiw : inp.waivers with _ | ws
    · exact trivial
    · cases ws with
      | nil => exact trivial
      | cons w ws =>
          unfold WaiversOk
          exact any_waiverTriggers_self (hw.1 (w :: ws) hiw)
  · rcases hiw : inp.label_waivers with _ | ws
    · exact trivial
    · cases ws with
      | nil => exact trivial
      | cons w ws =>
          unfold LabelWaiversOk
          exact any_labelWaiverTriggers_self (hw.2 (w :: ws) hiw)

/-- After one matched comparison, comparing the same desired entity against
the mutated current entity finds nothing left to change. -/
theorem comparePolicyPair_stable (inp cur : Policy) (st' : Policy × Bool)
    (h : comparePolicyPair inp cur = .ok st') (hw : WaiverIdsNodup inp) :
    comparePolicyPair inp st'.1 = .ok (st'.1, false) := by
  obtain ⟨hname, hid, hen, hsc, hpa, hci, hwrc, hre, hri, hpt, hne, hdo, hwv, hlw, hflag⟩ :=
    comparePolicyPair_spec inp cur st' h
  refine comparePolicyPair_noop inp st'.1 hen.symm hsc.symm ?_ ?_ ?_ hpa.symm hci.symm
    ?_ ?_ ?_ hwrc.symm ?_
  · rcases hi : inp.repo_exclude with _ | iv
    · exact trivial
    · rw [hi] at hre
      obtain ⟨cv, hcv, hset⟩ := hre
      rw [hcv]
      exact hset.symm
  · rcases hi : inp.repo_include with _ | iv
    · exact trivial
    · rw [hi] at hri
      obtain ⟨cv, hcv, hset⟩ := hri
      rw [hcv]
      exact hset.symm
  · rcases hi : inp.pkg_types_include with _ | iv
    · exact trivial
    · rw [hi] at hpt
      obtain ⟨cv, hcv, hset⟩ := hpt
      rw [hcv]
      exact hset.symm
  · rcases hi : inp.waivers with _ | ws
    · exact trivial
    · cases ws with
      | nil => rcases st'.1.waivers with _ | cv <;> simp [WaiversOk]
      | cons w ws =>
          rw [hi] at hwv
          unfold WaiversPost at hwv
          rcases hwv with hrep | ⟨cws, hcws, hfl⟩
          · rw [hrep]
            unfold WaiversOk
            exact any_waiverTriggers_self (hw.1 (w :: ws) hi)
          · rw [hcws]
            unfold WaiversOk
            exact hfl
  · rcases hi : inp.label_waivers with _ | ws
    · exact trivial
    · cases ws with
      | nil => rcases st'.1.label_waivers with _ | cv <;> simp [LabelWaiversOk]
      | cons w ws =>
          rw [hi] at hlw
          unfold LabelWaiversPost at hlw
          rcases hlw with hrep | ⟨cws, hcws, hfl⟩
          · rw [hrep]
            unfold LabelWaiversOk
            exact any_labelWaiverTriggers_self (hw.2 (w :: ws) hi)
          · rw [hcws]
            unfold LabelWaiversOk
            exact hfl
  · rcases hi : inp.notify_emails with _ | iv
    · exact trivial
    · rw [hi] at hne
      obtain ⟨cv, hcv, hset⟩ := hne
      rw [hcv]
      exact hset.symm
  · rcases hi : inp.decision_owners with _ | iv
    · exact trivial
    · rw [hi] at hdo
      obtain ⟨cv, hcv, hset⟩ := hdo
      rw [hcv]
      exact hset.symm

/-! ## Fold-level lemmas for `comparePolicies` -/

theorem countName_eq_names (l : List Policy) (n : String) :
    countName l n = (l.map (fun c => c.name)).countP (fun m => m == n) := by
  rw [countName, List.countP_map, ← List.countP_eq_length_filter]
  rfl

theorem map_names_replace (l : List Policy) (r : Policy) (n : String) (hr : r.name = n) :
    (l.map (fun x => if x.name == n then r else x)).map (fun c => c.name) =
      l.map (fun c => c.name) := by
  induction l with
  | nil => rfl
  | cons x l ih =>
      by_cases hx : x.name = n
      · have h3 : (x.name == n) = true := by simp [hx]
        simp only [List.map_cons, h3, if_true]
        rw [hr, hx, ih]
      · have h3 : (x.name == n) = false := by simp [hx]
        simp only [List.map_cons, h3, Bool.false_eq_true, if_false]
        rw [ih]

theorem filter_map_replace_ne (l : List Policy) (r : Policy) (n m : String)
    (hr : r.name = n) (hnm : m ≠ n) :
    (l.map (fun x => if x.name == n then r else x)).filter (fun c => c.name == m) =
      l.filter (fun c => c.name == m) := by
  induction l with
  | nil => rfl
  | cons x l ih =>
      by_cases hx : x.name = n
      · have h3 : (x.name == n) = true := by simp [hx]
        have h1 : (r.name == m) = false := by simp [hr, Ne.symm hnm]
        have h2 : (x.name == m) = false := by simp [hx, Ne.symm hnm]
        simp only [List.map_cons, List.filter_cons, h3, if_true, h1, h2,
          Bool.false_eq_true, if_false]
        exact ih
      · have h3 : (x.name == n) = false := by simp [hx]
        simp only [List.map_cons, List.filter_cons, h3, Bool.false_eq_true, if_false]
        by_cases hm : (x.name == m) = true
        · simp only [hm, if_true]
          rw [ih]
        · simp only [hm, Bool.false_eq_true, if_false]
          exact ih

theorem filter_map_replace_eq (l : List Policy) (r c : Policy) (n : String)
    (hr : r.name = n) (hfil : l.filter (fun x => x.name == n) = [c]) :
    (l.map (fun x => if x.name == n then r else x)).filter (fun x => x.name == n) = [r] := by
  induction l with
  | nil => cases hfil
  | cons x l ih =>
      rw [List.filter_cons] at hfil
      by_cases hx : x.name = n
      · have h3 : (x.name == n) = true := by simp [hx]
        rw [h3] at hfil
        simp only [if_true] at hfil
        injection hfil with h1 h2
        have hrn : (r.name == n) = true := by simp [hr]
        have hnil : (l.map (fun x => if x.name == n then r else x)).filter
            (fun x => x.name == n) = [] := by
          rw [List.filter_eq_nil_iff]
          intro y hy
          obtain ⟨z, hz, hzy⟩ := List.mem_map.mp hy
          by_cases hzn : z.name = n
          · exfalso
            have hmem : z ∈ l.filter (fun x => x.name == n) :=
              List.mem_filter.mpr ⟨hz, by simp [hzn]⟩
            rw [h2] at hmem
            cases hmem
          · rw [if_neg (by simp [hzn])] at hzy
            subst hzy
            simp [hzn]
        simp only [List.map_cons, List.filter_cons, h3, if_true, hrn, hnil]
      · have h3 : (x.name == n) = false := by simp [hx]
        rw [h3] at hfil
        simp only [Bool.false_eq_true, if_false] at hfil
        simp only [List.map_cons, List.filter_cons, h3, Bool.false_eq_true, if_false]
        exact ih hfil

theorem map_replace_self (l : List Policy) (c : Policy) (n : String)
    (hfil : l.filter (fun x => x.name == n) = [c]) :
    l.map (fun x => if x.name == n then c else x) = l := by
  induction l with
  | nil => rfl
  | cons x l ih =>
      rw [List.filter_cons] at hfil
      by_cases hx : x.name = n
      · have h3 : (x.name == n) = true := by simp [hx]
        rw [h3] at hfil
        simp only [if_true] at hfil
        injection hfil with h1 h2
        simp only [List.map_cons, h3, if_true]
        have hrepl : ∀ y ∈ l, (if y.name == n then c else y) = y := by
          intro y hy
          by_cases hyn : y.name = n
          · exfalso
            have hmem : y ∈ l.filter (fun x => x.name == n) :=
              List.mem_filter.mpr ⟨hy, by simp [hyn]⟩
            rw [h2] at hmem
            cases hmem
          · rw [if_neg (by simp [hyn])]
        have htail : l.map (fun x => if x.name == n then c else x) = l :=
          (List.map_congr_left hrepl).trans (List.map_id l)
        rw [htail, h1]
      · have h3 : (x.name == n) = false := by simp [hx]
        rw [h3] at hfil
        simp only [Bool.false_eq_true, if_false] at hfil
        simp only [List.map_cons, h3, Bool.false_eq_true, if_false]
        rw [ih hfil]

theorem comparePoliciesAux_eq_nil (st : List Policy × List Policy × List Policy)
    (inp : Policy) (D : List Policy)
    (hfil : st.1.filter (fun x => x.name == inp.name) = []) :
    comparePoliciesAux st (inp :: D) =
      comparePoliciesAux (st.1, st.2.1, st.2.2 ++ [inp]) D := by
  conv_lhs => unfold comparePoliciesAux
  rw [hfil]

theorem comparePoliciesAux_eq_one (st : List Policy × List Policy × List Policy)
    (inp c : Policy) (D : List Policy)
    (hfil : st.1.filter (fun x => x.name == inp.name) = [c]) :
    comparePoliciesAux st (inp :: D) =
      match comparePolicyPair inp c with
      | .error e => .error e
      | .ok r =>
          comparePoliciesAux
            (st.1.map (fun x => if x.name == inp.name then r.1 else x),
             if r.2 then st.2.1 ++ [r.1] else st.2.1, st.2.2) D := by
  conv_lhs => unfold comparePoliciesAux
  rw [hfil]

theorem comparePoliciesAux_eq_many (st : List Policy × List Policy × List Policy)
    (inp a b : Policy) (rest D : List Policy)
    (hfil : st.1.filter (fun x => x.name == inp.name) = a :: b :: rest) :
    comparePoliciesAux st (inp :: D) = comparePoliciesAux st D := by
  conv_lhs => unfold comparePoliciesAux
  rw [hfil]

theorem name_of_filter_one {l : List Policy} {c : Policy} {n : String}
    (h : l.filter (fun x => x.name == n) = [c]) : c.name = n := by
  have hm : c ∈ l.filter (fun x => x.name == n) := by
    rw [h]
    exact List.mem_singleton.mpr rfl
  simpa using (List.mem_filter.mp hm).2

theorem countName_congr {l₁ l₂ : List Policy}
    (h : l₁.map (fun c => c.name) = l₂.map (fun c => c.name)) (n : String) :
    countName l₁ n = countName l₂ n := by
  rw [countName_eq_names, countName_eq_names, h]

/-- The reconciler never renames a current entity: the sequence of names of
the current list is invariant across the whole fold. -/
theorem comparePoliciesAux_names :
    ∀ (D : List Policy) (st : List Policy × List Policy × List Policy)
      (res : List Policy × List Policy × List Policy),
      comparePoliciesAux st D = .ok res →
      res.1.map (fun c => c.name) = st.1.map (fun c => c.name)
  | [], st, res, h => by
      injection h with h
      rw [← h]
  | inp :: D, st, res, h => by
      rcases hfil : st.1.filter (fun x => x.name == inp.name) with _ | ⟨c, _ | ⟨c2, rest⟩⟩
      · rw [comparePoliciesAux_eq_nil st inp D hfil] at h
        exact comparePoliciesAux_names D (st.1, st.2.1, st.2.2 ++ [inp]) res h
      · rw [comparePoliciesAux_eq_one st inp c D hfil] at h
        rcases hp : comparePolicyPair inp c with e | r
        · rw [hp] at h
          cases h
        · rw [hp] at h
          simp only [] at h
          have hrec := comparePoliciesAux_names D _ res h
          rw [hrec]
          have hcn : c.name = inp.name := name_of_filter_one hfil
          have hrn : r.1.name = inp.name :=
            (comparePolicyPair_spec inp c r hp).1.trans hcn
          exact map_names_replace st.1 r.1 inp.name hrn
      · rw [comparePoliciesAux_eq_many st inp c c2 rest D hfil] at h
        exact comparePoliciesAux_names D st res h

/-- Accumulators only collect results: a run with non-empty accumulators is
the empty-accumulator run with the prefixes prepended. -/
theorem comparePoliciesAux_acc :
    ∀ (D : List Policy) (cur u k : List Policy),
      comparePoliciesAux (cur, u, k) D =
        (comparePoliciesAux (cur, [], []) D).map (fun r => (r.1, u ++ r.2.1, k ++ r.2.2))
  | [], cur, u, k => by
      simp [comparePoliciesAux, Except.map]
  | inp :: D, cur, u, k => by
      rcases hfil : cur.filter (fun x => x.name == inp.name) with _ | ⟨c, _ | ⟨c2, rest⟩⟩
      · rw [comparePoliciesAux_eq_nil (cur, u, k) inp D hfil,
          comparePoliciesAux_eq_nil (cur, [], []) inp D hfil]
        simp only []
        rw [comparePoliciesAux_acc D cur u (k ++ [inp]),
          comparePoliciesAux_acc D cur [] ([] ++ [inp])]
        rcases hrun : comparePoliciesAux (cur, [], []) D with e | r <;>
          simp [Except.map]
      · rw [comparePoliciesAux_eq_one (cur, u, k) inp c D hfil,
          comparePoliciesAux_eq_one (cur, [], []) inp c D hfil]
        rcases hp : comparePolicyPair inp c with e | r
        · simp [Except.map]
        · simp only []
          rw [comparePoliciesAux_acc D _ (if r.2 then u ++ [r.1] else u) k,
            comparePoliciesAux_acc D _ (if r.2 then [] ++ [r.1] else []) []]
          have hgen : ∀ (o : Except String (List Policy × List Policy × List Policy)),
              o.map (fun q => (q.1, (if r.2 then u ++ [r.1] else u) ++ q.2.1, k ++ q.2.2)) =
                (o.map (fun q => (q.1, (if r.2 then [] ++ [r.1] else []) ++ q.2.1, [] ++ q.2.2))).map
                  (fun q => (q.1, u ++ q.2.1, k ++ q.2.2)) := by
            intro o
            rcases o with e | q <;> rcases hr2 : r.2 <;> simp [Except.map]
          exact hgen _
      · rw [comparePoliciesAux_eq_many (cur, u, k) inp c c2 rest D hfil,
          comparePoliciesAux_eq_many (cur, [], []) inp c c2 rest D hfil]
        exact comparePoliciesAux_acc D cur u k

theorem countName_of_filter_nil {l : List Policy} {n : String}
    (h : l.filter (fun x => x.name == n) = []) : countName l n = 0 := by
  rw [countName, h]
  rfl

theorem countName_of_filter_one {l : List Policy} {c : Policy} {n : String}
    (h : l.filter (fun x => x.name == n) = [c]) : countName l n = 1 := by
  rw [countName, h]
  rfl

/-- Every update-list entry is a mutated current entity whose name matched
exactly one current entity and came from a processed desired entity. -/
theorem comparePoliciesAux_upd_mem :
    ∀ (D : List Policy) (st : List Policy × List Policy × List Policy)
      (res : List Policy × List Policy × List Policy),
      comparePoliciesAux st D = .ok res →
      ∀ u ∈ res.2.1, u ∈ st.2.1 ∨
        (countName st.1 u.name = 1 ∧ u.name ∈ D.map (fun d => d.name))
  | [], st, res, h, u, hu => by
      injection h with h
      rw [← h] at hu
      exact Or.inl hu
  | inp :: D, st, res, h, u, hu => by
      rcases hfil : st.1.filter (fun x => x.name == inp.name) with _ | ⟨c, _ | ⟨c2, rest⟩⟩
      · rw [comparePoliciesAux_eq_nil st inp D hfil] at h
        rcases comparePoliciesAux_upd_mem D _ res h u hu with h1 | ⟨h1, h2⟩
        · exact Or.inl h1
        · exact Or.inr ⟨h1, List.mem_cons_of_mem _ h2⟩
      · rw [comparePoliciesAux_eq_one st inp c D hfil] at h
        rcases hp : comparePolicyPair inp c with e | r
        · rw [hp] at h
          cases h
        · rw [hp] at h
          simp only [] at h
          have hcn : c.name = inp.name := name_of_filter_one hfil
          have hrn : r.1.name = inp.name :=
            (comparePolicyPair_spec inp c r hp).1.trans hcn
          rcases comparePoliciesAux_upd_mem D _ res h u hu with h1 | ⟨h1, h2⟩
          · rcases hr2 : r.2 with _ | _
            · rw [hr2] at h1
              simp only [if_false] at h1
              exact Or.inl h1
            · rw [hr2] at h1
              simp only [if_true] at h1
              rcases List.mem_append.mp h1 with h3 | h3
              · exact Or.inl h3
              · have h4 : u = r.1 := List.mem_singleton.mp h3
                refine Or.inr ⟨?_, ?_⟩
                · rw [h4, hrn]
                  exact countName_of_filter_one hfil
                · rw [h4, hrn]
                  exact List.mem_cons_self _ _
          · refine Or.inr ⟨?_, List.mem_cons_of_mem _ h2⟩
            rw [← h1]
            exact (countName_congr (map_names_replace st.1 r.1 inp.name hrn) u.name).symm
      · rw [comparePoliciesAux_eq_many st inp c c2 rest D hfil] at h
        rcases comparePoliciesAux_upd_mem D st res h u hu with h1 | ⟨h1, h2⟩
        · exact Or.inl h1
        · exact Or.inr ⟨h1, List.mem_cons_of_mem _ h2⟩

/-- Every create-list entry is a desired entity whose name matched no
current entity. -/
theorem comparePoliciesAux_cre_mem :
    ∀ (D : List Policy) (st : List Policy × List Policy × List Policy)
      (res : List Policy × List Policy × List Policy),
      comparePoliciesAux st D = .ok res →
      ∀ e ∈ res.2.2, e ∈ st.2.2 ∨ (countName st.1 e.name = 0 ∧ e ∈ D)
  | [], st, res, h, e, he => by
      injection h with h
      rw [← h] at he
      exact Or.inl he
  | inp :: D, st, res, h, e, he => by
      rcases hfil : st.1.filter (fun x => x.name == inp.name) with _ | ⟨c, _ | ⟨c2, rest⟩⟩
      · rw [comparePoliciesAux_eq_nil st inp D hfil] at h
        rcases comparePoliciesAux_cre_mem D _ res h e he with h1 | ⟨h1, h2⟩
        · rcases List.mem_append.mp h1 with h3 | h3
          · exact Or.inl h3
          · have h4 : e = inp := List.mem_singleton.mp h3
            refine Or.inr ⟨?_, ?_⟩
            · rw [h4]
              exact countName_of_filter_nil hfil
            · rw [h4]
              exact List.mem_cons_self _ _
        · exact Or.inr ⟨h1, List.mem_cons_of_mem _ h2⟩
      · rw [comparePoliciesAux_eq_one st inp c D hfil] at h
        rcases hp : comparePolicyPair inp c with e' | r
        · rw [hp] at h
          cases h
        · rw [hp] at h
          simp only [] at h
          have hcn : c.name = inp.name := name_of_filter_one hfil
          have hrn : r.1.name = inp.name :=
            (comparePolicyPair_spec inp c r hp).1.trans hcn
          rcases comparePoliciesAux_cre_mem D _ res h e he with h1 | ⟨h1, h2⟩
          · exact Or.inl h1
          · refine Or.inr ⟨?_, List.mem_cons_of_mem _ h2⟩
            rw [← h1]
            exact (countName_congr (map_names_replace st.1 r.1 inp.name hrn) e.name).symm
      · rw [comparePoliciesAux_eq_many st inp c c2 rest D hfil] at h
        rcases comparePoliciesAux_cre_mem D st res h e he with h1 | ⟨h1, h2⟩
        · exact Or.inl h1
        · exact Or.inr ⟨h1, List.mem_cons_of_mem _ h2⟩

/-- A name not mentioned by the desired list is untouched: its matching
current entities and create entries are exactly as before the run. -/
theorem comparePoliciesAux_untouched :
    ∀ (D : List Policy) (st : List Policy × List Policy × List Policy)
      (res : List Policy × List Policy × List Policy) (n : String),
      comparePoliciesAux st D = .ok res →
      n ∉ D.map (fun d => d.name) →
      res.1.filter (fun c => c.name == n) = st.1.filter (fun c => c.name == n) ∧
        res.2.2.filter (fun c => c.name == n) = st.2.2.filter (fun c => c.name == n)
  | [], st, res, n, h, hn => by
      injection h with h
      rw [← h]
      exact ⟨rfl, rfl⟩
  | inp :: D, st, res, n, h, hn => by
      have hn1 : n ≠ inp.name := by
        intro hc
        exact hn (by rw [hc]; exact List.mem_cons_self _ _)
      have hn2 : n ∉ D.map (fun d => d.name) := by
        intro hc
        exact hn (List.mem_cons_of_mem _ hc)
      rcases hfil : st.1.filter (fun x => x.name == inp.name) with _ | ⟨c, _ | ⟨c2, rest⟩⟩
      · rw [comparePoliciesAux_eq_nil st inp D hfil] at h
        obtain ⟨g1, g2⟩ := comparePoliciesAux_untouched D _ res n h hn2
        refine ⟨g1, ?_⟩
        rw [g2]
        simp only [List.filter_append]
        have : [inp].filter (fun c => c.name == n) = [] := by
          simp [Ne.symm hn1]
        rw [this, List.append_nil]
      · rw [comparePoliciesAux_eq_one st inp c D hfil] at h
        rcases hp : comparePolicyPair inp c with e | r
        · rw [hp] at h
          cases h
        · rw [hp] at h
          simp only [] at h
          have hcn : c.name = inp.name := name_of_filter_one hfil
          have hrn : r.1.name = inp.name :=
            (comparePolicyPair_spec inp c r hp).1.trans hcn
          obtain ⟨g1, g2⟩ := comparePoliciesAux_untouched D _ res n h hn2
          refine ⟨?_, g2⟩
          rw [g1]
          exact filter_map_replace_ne st.1 r.1 inp.name n hrn hn1
      · rw [comparePoliciesAux_eq_many st inp c c2 rest D hfil] at h
        exact comparePoliciesAux_untouched D st res n h hn2

/-- After the run, a desired entity that matched exactly one current entity
leaves behind exactly one matching entity in the final current list, and a
re-comparison against it is a no-op. -/
theorem comparePoliciesAux_stable_entry :
    ∀ (D : List Policy) (st res : List Policy × List Policy × List Policy) (d : Policy),
      comparePoliciesAux st D = .ok res → d ∈ D →
      ((D.map (fun x => x.name)).Nodup) → WaiverIdsNodup d →
      countName st.1 d.name = 1 →
      ∃ c', res.1.filter (fun c => c.name == d.name) = [c'] ∧
        comparePolicyPair d c' = .ok (c', false)
  | [], st, res, d, h, hd, _, _, _ => absurd hd (List.not_mem_nil d)
  | inp :: D, st, res, d, h, hd, hnd, hw, hcount => by
      simp only [List.map_cons, List.nodup_cons] at hnd
      rcases List.mem_cons.mp hd with hdi | hdD
      · subst hdi
        obtain ⟨c, hfil⟩ := List.length_eq_one.mp (by rw [countName] at hcount; exact hcount)
        rw [comparePoliciesAux_eq_one st d c D hfil] at h
        rcases hp : comparePolicyPair d c with e | r
        · rw [hp] at h
          cases h
        · rw [hp] at h
          simp only [] at h
          have hcn : c.name = d.name := name_of_filter_one hfil
          have hrn : r.1.name = d.name :=
            (comparePolicyPair_spec d c r hp).1.trans hcn
          obtain ⟨g1, _⟩ := comparePoliciesAux_untouched D _ res d.name h hnd.1
          refine ⟨r.1, ?_, ?_⟩
          · rw [g1]
            simp only []
            exact filter_map_replace_eq st.1 r.1 c d.name hrn hfil
          · have := comparePolicyPair_stable d c r hp hw
            simpa using this
      · rcases hfil : st.1.filter (fun x => x.name == inp.name) with _ | ⟨c, _ | ⟨c2, rest⟩⟩
        · rw [comparePoliciesAux_eq_nil st inp D hfil] at h
          exact comparePoliciesAux_stable_entry D _ res d h hdD hnd.2 hw hcount
        · rw [comparePoliciesAux_eq_one st inp c D hfil] at h
          rcases hp : comparePolicyPair inp c with e | r
          · rw [hp] at h
            cases h
          · rw [hp] at h
            simp only [] at h
            have hcn : c.name = inp.name := name_of_filter_one hfil
            have hrn : r.1.name = inp.name :=
              (comparePolicyPair_spec inp c r hp).1.trans hcn
            refine comparePoliciesAux_stable_entry D _ res d h hdD hnd.2 hw ?_
            rw [← hcount]
            exact countName_congr (map_names_replace st.1 r.1 inp.name hrn) d.name
        · rw [comparePoliciesAux_eq_many st inp c c2 rest D hfil] at h
          exact comparePoliciesAux_stable_entry D st res d h hdD hnd.2 hw hcount

/-- After the run, a desired entity that matched no current entity appears
exactly once in the create list and still matches nothing in the final
current list. -/
theorem comparePoliciesAux_create_entry :
    ∀ (D : List Policy) (st res : List Policy × List Policy × List Policy) (d : Policy),
      comparePoliciesAux st D = .ok res → d ∈ D →
      ((D.map (fun x => x.name)).Nodup) →
      countName st.1 d.name = 0 →
      st.2.2.filter (fun c => c.name == d.name) = [] →
      res.1.filter (fun c => c.name == d.name) = [] ∧
        res.2.2.filter (fun c => c.name == d.name) = [d]
  | [], st, res, d, h, hd, _, _, _ => absurd hd (List.not_mem_nil d)
  | inp :: D, st, res, d, h, hd, hnd, hcount, hacc => by
      simp only [List.map_cons, List.nodup_cons] at hnd
      rcases List.mem_cons.mp hd with hdi | hdD
      · subst hdi
        have hfil : st.1.filter (fun x => x.name == d.name) = [] := by
          rw [countName] at hcount
          exact List.length_eq_zero.mp hcount
        rw [comparePoliciesAux_eq_nil st d D hfil] at h
        obtain ⟨g1, g2⟩ := comparePoliciesAux_untouched D _ res d.name h hnd.1
        refine ⟨by rw [g1]; exact hfil, ?_⟩
        rw [g2]
        simp only [List.filter_append, hacc]
        simp
      · have hne : inp.name ≠ d.name := by
          intro hc
          exact hnd.1 (hc ▸ List.mem_map_of_mem (fun x => x.name) hdD)
        rcases hfil : st.1.filter (fun x => x.name == inp.name) with _ | ⟨c, _ | ⟨c2, rest⟩⟩
        · rw [comparePoliciesAux_eq_nil st inp D hfil] at h
          refine comparePoliciesAux_create_entry D _ res d h hdD hnd.2 hcount ?_
          simp only [List.filter_append, hacc]
          simp [hne]
        · rw [comparePoliciesAux_eq_one st inp c D hfil] at h
          rcases hp : comparePolicyPair inp c with e | r
          · rw [hp] at h
            cases h
          · rw [hp] at h
            simp only [] at h
            have hcn : c.name = inp.name := name_of_filter_one hfil
            have hrn : r.1.name = inp.name :=
              (comparePolicyPair_spec inp c r hp).1.trans hcn
            refine comparePoliciesAux_create_entry D _ res d h hdD hnd.2 ?_ hacc
            rw [← hcount]
            exact countName_congr (map_names_replace st.1 r.1 inp.name hrn) d.name
        · rw [comparePoliciesAux_eq_many st inp c c2 rest D hfil] at h
          exact comparePoliciesAux_create_entry D st res d h hdD hnd.2 hcount hacc

/-- A run in which every desired entity either finds its stable match or an
ambiguous name produces no output and no mutation at all. -/
theorem comparePoliciesAux_stable_run :
    ∀ (D C₂ : List Policy),
      (∀ d ∈ D, (∃ c, C₂.filter (fun x => x.name == d.name) = [c] ∧
          comparePolicyPair d c = .ok (c, false)) ∨
        2 ≤ (C₂.filter (fun x => x.name == d.name)).length) →
      comparePoliciesAux (C₂, [], []) D = .ok (C₂, [], [])
  | [], C₂, _ => rfl
  | inp :: D, C₂, hstab => by
      rcases hstab inp (List.mem_cons_self _ _) with ⟨c, hfil, hpair⟩ | hlen
      · rw [comparePoliciesAux_eq_one (C₂, [], []) inp c D hfil, hpair]
        simp only []
        have hms := map_replace_self C₂ c inp.name hfil
        have hstep : ((C₂.map fun x => if x.name == inp.name then c else x : List Policy),
            (if (false : Bool) then ([] : List Policy) ++ [c] else []), ([] : List Policy)) =
            ((C₂ : List Policy), ([] : List Policy), ([] : List Policy)) := by
          rw [hms]
          simp
        rw [hstep]
        exact comparePoliciesAux_stable_run D C₂
          (fun d hd => hstab d (List.mem_cons_of_mem _ hd))
      · rcases hfil : C₂.filter (fun x => x.name == inp.name) with _ | ⟨a, _ | ⟨b, rest⟩⟩
        · rw [hfil] at hlen
          simp at hlen
        · rw [hfil] at hlen
          simp at hlen
        · rw [comparePoliciesAux_eq_many (C₂, [], []) inp a b rest D hfil]
          exact comparePoliciesAux_stable_run D C₂
            (fun d hd => hstab d (List.mem_cons_of_mem _ hd))

theorem comparePoliciesAux_acc_ok {D : List Policy} {cur u k : List Policy}
    {res : List Policy × List Policy × List Policy}
    (h : comparePoliciesAux (cur, u, k) D = .ok res) :
    ∃ q, comparePoliciesAux (cur, [], []) D = .ok q ∧
      res = (q.1, u ++ q.2.1, k ++ q.2.2) := by
  rw [comparePoliciesAux_acc] at h
  rcases hq : comparePoliciesAux (cur, [], []) D with e | q
  · rw [hq] at h
    cases h
  · rw [hq] at h
    simp only [Except.map] at h
    injection h with h
    exact ⟨q, rfl, h.symm⟩

/-- The in-place mutation of the current list is exactly the update list
applied by name: the post-call current list is the input list with each
update entry substituted for the entity of the same name. -/
theorem comparePoliciesAux_mutation :
    ∀ (D C : List Policy) (res : List Policy × List Policy × List Policy),
      ((D.map (fun d => d.name)).Nodup) →
      comparePoliciesAux (C, [], []) D = .ok res →
      res.1 = C.map (fun c =>
        match res.2.1.find? (fun u => u.name == c.name) with
        | some u => u
        | none => c)
  | [], C, res, _, h => by
      injection h with h
      rw [← h]
      simp
  | inp :: D, C, res, hnd, h => by
      simp only [List.map_cons, List.nodup_cons] at hnd
      rcases hfil : C.filter (fun x => x.name == inp.name) with _ | ⟨c, _ | ⟨c2, rest⟩⟩
      · rw [comparePoliciesAux_eq_nil (C, [], []) inp D hfil] at h
        obtain ⟨q, hq, hres⟩ := comparePoliciesAux_acc_ok h
        have ih := comparePoliciesAux_mutation D C q hnd.2 hq
        rw [hres]
        simpa using ih
      · rw [comparePoliciesAux_eq_one (C, [], []) inp c D hfil] at h
        rcases hp : comparePolicyPair inp c with e | r
        · rw [hp] at h
          cases h
        · rw [hp] at h
          simp only [] at h
          have hcn : c.name = inp.name := name_of_filter_one hfil
          have hspec := comparePolicyPair_spec inp c r hp
          have hrn : r.1.name = inp.name := hspec.1.trans hcn
          rcases hr2 : r.2 with _ | _
          · have hr1c : r.1 = c := hspec.2.2.2.2.2.2.2.2.2.2.2.2.2.2 hr2
            rw [hr2] at h
            rw [if_neg (by simp)] at h
            rw [hr1c, map_replace_self C c inp.name hfil] at h
            exact comparePoliciesAux_mutation D C res hnd.2 h
          · rw [hr2] at h
            rw [if_pos rfl] at h
            obtain ⟨q, hq, hres⟩ := comparePoliciesAux_acc_ok h
            simp only [List.nil_append, List.singleton_append] at hres
            have ih := comparePoliciesAux_mutation D _ q hnd.2 hq
            have hupdnames : ∀ u ∈ q.2.1, u.name ∈ D.map (fun d => d.name) := by
              intro u hu
              rcases comparePoliciesAux_upd_mem D _ q hq u hu with h1 | ⟨_, h2⟩
              · cases h1
              · exact h2
            rw [hres]
            simp only []
            rw [ih, List.map_map]
            refine List.map_congr_left ?_
            intro x _
            simp only [Function.comp]
            by_cases hx : x.name = inp.name
            · have hxb : (x.name == inp.name) = true := by simp [hx]
              rw [hxb]
              simp only [if_true]
              have hq2none : q.2.1.find? (fun u => u.name == r.1.name) = none := by
                rw [List.find?_eq_none]
                intro u hu
                simp only [beq_iff_eq, hrn]
                intro hc
                exact hnd.1 (hc ▸ hupdnames u hu)
              rw [hq2none]
              have hhead : ((r.1 :: q.2.1).find? (fun u => u.name == x.name)) = some r.1 :=
                List.find?_cons_of_pos _ (by simp [hrn, hx])
              rw [hhead]
            · have hxb : (x.name == inp.name) = false := by simp [hx]
              rw [hxb]
              simp only [Bool.false_eq_true, if_false]
              have hhead : ((r.1 :: q.2.1).find? (fun u => u.name == x.name)) =
                  q.2.1.find? (fun u => u.name == x.name) :=
                List.find?_cons_of_neg _ (by simp [hrn]; exact fun hc => hx hc.symm)
              rw [hhead]
      · rw [comparePoliciesAux_eq_many (C, [], []) inp c c2 rest D hfil] at h
        exact comparePoliciesAux_mutation D C res hnd.2 h

/-! ## Lemmas for `compareConditions` -/

theorem compareOneCondition_name (inp cur : Condition) :
    (compareOneCondition inp cur).1.name = cur.name := by
  unfold compareOneCondition
  split <;> dsimp only [] <;> split <;> rfl

theorem condName_of_filter_one {l : List Condition} {c : Condition} {n : String}
    (h : l.filter (fun x => x.name == n) = [c]) : c.name = n := by
  have hm : c ∈ l.filter (fun x => x.name == n) := by
    rw [h]
    exact List.mem_singleton.mpr rfl
  simpa using (List.mem_filter.mp hm).2

theorem countCondName_eq_names (l : List Condition) (n : String) :
    countCondName l n = (l.map (fun c => c.name)).countP (fun m => m == n) := by
  rw [countCondName, List.countP_map, ← List.countP_eq_length_filter]
  rfl

theorem countCondName_congr {l₁ l₂ : List Condition}
    (h : l₁.map (fun c => c.name) = l₂.map (fun c => c.name)) (n : String) :
    countCondName l₁ n = countCondName l₂ n := by
  rw [countCondName_eq_names, countCondName_eq_names, h]

theorem cond_map_names_replace (l : List Condition) (r : Condition) (n : String)
    (hr : r.name = n) :
    (l.map (fun x => if x.name == n then r else x)).map (fun c => c.name) =
      l.map (fun c => c.name) := by
  induction l with
  | nil => rfl
  | cons x l ih =>
      by_cases hx : x.name = n
      · have h3 : (x.name == n) = true := by simp [hx]
        simp only [List.map_cons, h3, if_true]
        rw [hr, hx, ih]
      · have h3 : (x.name == n) = false := by simp [hx]
        simp only [List.map_cons, h3, Bool.false_eq_true, if_false]
        rw [ih]

theorem compareConditionsStep_eq_nil (st : List Condition × List Condition × List Condition)
    (inp : Condition) (hfil : st.1.filter (fun x => x.name == inp.name) = []) :
    compareConditionsStep st inp = (st.1, st.2.1, st.2.2 ++ [inp]) := by
  unfold compareConditionsStep
  rw [hfil]

theorem compareConditionsStep_eq_one (st : List Condition × List Condition × List Condition)
    (inp c : Condition) (hfil : st.1.filter (fun x => x.name == inp.name) = [c]) :
    compareConditionsStep st inp =
      (st.1.map (fun x => if x.name == inp.name then (compareOneCondition inp c).1 else x),
       if (compareOneCondition inp c).2 then st.2.1 ++ [(compareOneCondition inp c).1]
       else st.2.1, st.2.2) := by
  unfold compareConditionsStep
  rw [hfil]

theorem compareConditionsStep_eq_many (st : List Condition × List Condition × List Condition)
    (inp a b : Condition) (rest : List Condition)
    (hfil : st.1.filter (fun x => x.name == inp.name) = a :: b :: rest) :
    compareConditionsStep st inp = st := by
  unfold compareConditionsStep
  rw [hfil]

theorem compareConditionsStep_names (st : List Condition × List Condition × List Condition)
    (inp : Condition) :
    (compareConditionsStep st inp).1.map (fun c => c.name) = st.1.map (fun c => c.name) := by
  rcases hfil : st.1.filter (fun x => x.name == inp.name) with _ | ⟨c, _ | ⟨c2, rest⟩⟩
  · rw [compareConditionsStep_eq_nil st inp hfil]
  · rw [compareConditionsStep_eq_one st inp c hfil]
    have hcn : c.name = inp.name := condName_of_filter_one hfil
    have hrn : (compareOneCondition inp c).1.name = inp.name :=
      (compareOneCondition_name inp c).trans hcn
    exact cond_map_names_replace st.1 _ inp.name hrn
  · rw [compareConditionsStep_eq_many st inp c c2 rest hfil]

theorem compareConditions_fold_names :
    ∀ (D : List Condition) (st : List Condition × List Condition × List Condition),
      (List.foldl compareConditionsStep st D).1.map (fun c => c.name) =
        st.1.map (fun c => c.name)
  | [], st => rfl
  | inp :: D, st => by
      rw [List.foldl_cons]
      rw [compareConditions_fold_names D _]
      exact compareConditionsStep_names st inp

theorem compareConditionsStep_skip (st : List Condition × List Condition × List Condition)
    (inp : Condition) (h : 2 ≤ (st.1.filter (fun x => x.name == inp.name)).length) :
    compareConditionsStep st inp = st := by
  rcases hfil : st.1.filter (fun x => x.name == inp.name) with _ | ⟨a, _ | ⟨b, rest⟩⟩
  · rw [hfil] at h
    simp at h
  · rw [hfil] at h
    simp at h
  · exact compareConditionsStep_eq_many st inp a b rest hfil

theorem compareConditions_fold_upd_mem :
    ∀ (D : List Condition) (st : List Condition × List Condition × List Condition),
      ∀ u ∈ (List.foldl compareConditionsStep st D).2.1,
        u ∈ st.2.1 ∨ countCondName st.1 u.name = 1
  | [], st, u, hu => Or.inl hu
  | inp :: D, st, u, hu => by
      rw [List.foldl_cons] at hu
      have hnames := compareConditionsStep_names st inp
      rcases compareConditions_fold_upd_mem D _ u hu with h1 | h1
      · rcases hfil : st.1.filter (fun x => x.name == inp.name) with _ | ⟨c, _ | ⟨c2, rest⟩⟩
        · rw [compareConditionsStep_eq_nil st inp hfil] at h1
          exact Or.inl h1
        · rw [compareConditionsStep_eq_one st inp c hfil] at h1
          simp only [] at h1
          rcases hr2 : (compareOneCondition inp c).2 with _ | _
          · rw [hr2] at h1
            simp only [Bool.false_eq_true, if_false] at h1
            exact Or.inl h1
          · rw [hr2] at h1
            simp only [if_true] at h1
            rcases List.mem_append.mp h1 with h3 | h3
            · exact Or.inl h3
            · have h4 : u = (compareOneCondition inp c).1 := List.mem_singleton.mp h3
              refine Or.inr ?_
              rw [h4, (compareOneCondition_name inp c).trans (condName_of_filter_one hfil)]
              rw [countCondName, hfil]
              rfl
        · rw [compareConditionsStep_eq_many st inp c c2 rest hfil] at h1
          exact Or.inl h1
      · exact Or.inr ((countCondName_congr hnames u.name).symm.trans h1)

theorem compareConditions_fold_cre_mem :
    ∀ (D : List Condition) (st : List Condition × List Condition × List Condition),
      ∀ e ∈ (List.foldl compareConditionsStep st D).2.2,
        e ∈ st.2.2 ∨ countCondName st.1 e.name = 0
  | [], st, e, he => Or.inl he
  | inp :: D, st, e, he => by
      rw [List.foldl_cons] at he
      have hnames := compareConditionsStep_names st inp
      rcases compareConditions_fold_cre_mem D _ e he with h1 | h1
      · rcases hfil : st.1.filter (fun x => x.name == inp.name) with _ | ⟨c, _ | ⟨c2, rest⟩⟩
        · rw [compareConditionsStep_eq_nil st inp hfil] at h1
          simp only [] at h1
          rcases List.mem_append.mp h1 with h3 | h3
          · exact Or.inl h3
          · have h4 : e = inp := List.mem_singleton.mp h3
            refine Or.inr ?_
            rw [h4]
            rw [countCondName, hfil]
            rfl
        · rw [compareConditionsStep_eq_one st inp c hfil] at h1
          exact Or.inl h1
        · rw [compareConditionsStep_eq_many st inp c c2 rest hfil] at h1
          exact Or.inl h1
      · exact Or.inr ((countCondName_congr hnames e.name).symm.trans h1)

end PolicyStepLemmas


/-! ## Skipping an ambiguous desired entity -/

theorem comparePoliciesAux_append :
    ∀ (D₁ D₂ : List Policy) (st : List Policy × List Policy × List Policy),
      comparePoliciesAux st (D₁ ++ D₂) =
        match comparePoliciesAux st D₁ with
        | .error e => .error e
        | .ok q => comparePoliciesAux q D₂
  | [], D₂, st => rfl
  | inp :: D₁, D₂, st => by
      rw [List.cons_append]
      rcases hfil : st.1.filter (fun x => x.name == inp.name) with _ | ⟨c, _ | ⟨c2, rest⟩⟩
      · rw [comparePoliciesAux_eq_nil st inp (D₁ ++ D₂) hfil,
          comparePoliciesAux_eq_nil st inp D₁ hfil]
        exact comparePoliciesAux_append D₁ D₂ _
      · rw [comparePoliciesAux_eq_one st inp c (D₁ ++ D₂) hfil,
          comparePoliciesAux_eq_one st inp c D₁ hfil]
        rcases hp : comparePolicyPair inp c with e | r
        · rfl
        · simp only []
          exact comparePoliciesAux_append D₁ D₂ _
      · rw [comparePoliciesAux_eq_many st inp c c2 rest (D₁ ++ D₂) hfil,
          comparePoliciesAux_eq_many st inp c c2 rest D₁ hfil]
        exact comparePoliciesAux_append D₁ D₂ st

theorem comparePoliciesAux_skip_dup (P₁ P₂ : List Policy) (p : Policy) (C : List Policy)
    (h2 : 2 ≤ countName C p.name) :
    comparePoliciesAux (C, [], []) (P₁ ++ p :: P₂) =
      comparePoliciesAux (C, [], []) (P₁ ++ P₂) := by
  rw [comparePoliciesAux_append P₁ (p :: P₂) (C, [], []),
    comparePoliciesAux_append P₁ P₂ (C, [], [])]
  rcases hq : comparePoliciesAux (C, [], []) P₁ with e | q
  · rfl
  · simp only []
    have hcnt : countName q.1 p.name = countName C p.name :=
      countName_congr (comparePoliciesAux_names P₁ (C, [], []) q hq) p.name
    rcases hfil : q.1.filter (fun x => x.name == p.name) with _ | ⟨a, _ | ⟨b, rest⟩⟩
    · rw [countName, hfil] at hcnt
      rw [← hcnt] at h2
      simp at h2
    · rw [countName, hfil] at hcnt
      rw [← hcnt] at h2
      simp at h2
    · exact comparePoliciesAux_eq_many q p a b rest P₂ hfil

theorem compareConditions_skip_dup (D₁ D₂ : List Condition) (e : Condition)
    (C : List Condition) (h2 : 2 ≤ countCondName C e.name) :
    compareConditions (D₁ ++ e :: D₂) C = compareConditions (D₁ ++ D₂) C := by
  unfold compareConditions
  rw [List.foldl_append, List.foldl_append, List.foldl_cons]
  have hcnt : countCondName (List.foldl compareConditionsStep (C, [], []) D₁).1 e.name =
      countCondName C e.name :=
    countCondName_congr (compareConditions_fold_names D₁ (C, [], [])) e.name
  rw [compareConditionsStep_skip _ e (by rw [← countCondName]; rw [hcnt]; exact h2)]

/-! ## Dictionary update lemmas -/

theorem dictGet_dictSet_self :
    ∀ (d : List (String × JVal)) (k : String) (v : JVal),
      dictGet (dictSet d k v) k = some v
  | [], k, v => by simp [dictSet, dictGet]
  | (k₁, v₁) :: rest, k, v => by
      by_cases h : k₁ = k
      · simp [dictSet, dictGet, h]
      · have hb : (k₁ == k) = false := by simp [h]
        simp only [dictSet, hb, Bool.false_eq_true, if_false]
        rw [dictGet, List.find?_cons_of_neg _ (by simp [h]), ← dictGet]
        exact dictGet_dictSet_self rest k v

theorem dictGet_dictSet_other :
    ∀ (d : List (String × JVal)) (k k₂ : String) (v : JVal), k₂ ≠ k →
      dictGet (dictSet d k v) k₂ = dictGet d k₂
  | [], k, k₂, v, h => by
      rw [dictSet, dictGet, dictGet]
      rw [List.find?_cons_of_neg _ (by simp; exact fun hc => h hc.symm)]
  | (k₁, v₁) :: rest, k, k₂, v, h => by
      by_cases hk : k₁ = k
      · have hb : (k₁ == k) = true := by simp [hk]
        simp only [dictSet, hb, if_true]
        rw [dictGet, dictGet,
          List.find?_cons_of_neg _ (by simp; exact fun hc => h hc.symm),
          List.find?_cons_of_neg _ (by simp [hk]; exact fun hc => h hc.symm)]
      · have hb : (k₁ == k) = false := by simp [hk]
        simp only [dictSet, hb, Bool.false_eq_true, if_false]
        by_cases hk2 : k₁ = k₂
        · rw [dictGet, dictGet, List.find?_cons_of_pos _ (by simp [hk2]),
            List.find?_cons_of_pos _ (by simp [hk2])]
        · rw [dictGet, dictGet, List.find?_cons_of_neg _ (by simp [hk2]),
            List.find?_cons_of_neg _ (by simp [hk2])]
          rw [← dictGet, ← dictGet]
          exact dictGet_dictSet_other rest k k₂ v h


/-! ## C2: idempotence of the policy reconciler -/

/-- C2: For every desired list D and current list C with unique identities,
running `compare_policies`, applying its create entries as creates and its
update entries as updates to C to obtain C', and running `compare_policies`
again on (D, C') yields an empty update list and an empty create list. -/
theorem c2_reconcile_idempotent (D C : List Policy)
    (res : List Policy × List Policy × List Policy)
    (hD : (D.map (fun d => d.name)).Nodup)
    (hW : ∀ d ∈ D, WaiverIdsNodup d)
    (h : comparePolicies D C = .ok res) :
    comparePolicies D (applyReconciliation C res.2.1 res.2.2) =
      .ok (applyReconciliation C res.2.1 res.2.2, [], []) := by
  rw [comparePolicies] at h
  have hmut := comparePoliciesAux_mutation D C res hD h
  have hC2 : applyReconciliation C res.2.1 res.2.2 = res.1 ++ res.2.2 := by
    rw [applyReconciliation, ← hmut]
  rw [comparePolicies, hC2]
  apply comparePoliciesAux_stable_run
  intro d hd
  rcases hfil : C.filter (fun x => x.name == d.name) with _ | ⟨c, _ | ⟨c2, rest⟩⟩
  · obtain ⟨g1, g2⟩ := comparePoliciesAux_create_entry D (C, [], []) res d h hd hD
      (countName_of_filter_nil hfil) rfl
    refine Or.inl ⟨d, ?_, comparePolicyPair_self d (hW d hd)⟩
    rw [List.filter_append, g1, g2]
    rfl
  · obtain ⟨c', g1, g2⟩ := comparePoliciesAux_stable_entry D (C, [], []) res d h hd hD
      (hW d hd) (countName_of_filter_one hfil)
    refine Or.inl ⟨c', ?_, g2⟩
    have hcre : res.2.2.filter (fun x => x.name == d.name) = [] := by
      rw [List.filter_eq_nil_iff]
      intro e he hne
      rcases comparePoliciesAux_cre_mem D (C, [], []) res h e he with h0 | ⟨h0, _⟩
      · exact absurd h0 (List.not_mem_nil e)
      · have hen : e.name = d.name := by simpa using hne
        rw [hen, countName_of_filter_one hfil] at h0
        cases h0
    rw [List.filter_append, g1, hcre]
    rfl
  · refine Or.inr ?_
    have hcc : countName res.1 d.name = countName C d.name :=
      countName_congr (comparePoliciesAux_names D (C, [], []) res h) d.name
    have h2 : 2 ≤ countName res.1 d.name := by
      rw [hcc, countName, hfil]
      simp
    rw [List.filter_append, List.length_append]
    exact le_trans h2 (Nat.le_add_right _ _)


/-- C2 witness: a concrete desired/current pair with a repo_exclude update;
after applying the update the second run reports nothing to do. -/
theorem c2_reconcile_idempotent_witness :
    comparePolicies [c2Desired] (applyReconciliation [c2Current] [c2Updated] []) =
      .ok (applyReconciliation [c2Current] [c2Updated] [], [], []) :=
  c2_reconcile_idempotent [c2Desired] [c2Current] ([c2Updated], [c2Updated], [])
    (by decide)
    (fun d hd => by
      rcases List.mem_singleton.mp hd with rfl
      exact ⟨fun _ h => Option.noConfusion h, fun _ h => Option.noConfusion h⟩)
    rfl

/-- C3: the waiver comparison of the source requires every compared field to
differ at once (`and` across fields, source lines 280-286), so a desired
waiver that differs from its id-matched current waiver in the justification
alone produces no update at all: the matched current policy is not appended
to the update list, contradicting the claim's any-field-differs trigger. -/
theorem c3_waiver_single_field_diff_no_update :
    comparePolicies [c3Desired] [c3Current] = .ok ([c3Current], [], []) ∧
    c3Desired.name = c3Current.name ∧
    c3Desired.waivers = some [{ sampleWaiver with justification := "new reason" }] ∧
    c3Current.waivers = some [sampleWaiver] ∧
    ({ sampleWaiver with justification := "new reason" } : Waiver).id = sampleWaiver.id ∧
    ({ sampleWaiver with justification := "new reason" } : Waiver).justification ≠
      sampleWaiver.justification :=
  ⟨rfl, rfl, rfl, rfl, rfl, by decide⟩

/-- C5: a field present in desired but absent from current is indeed treated
as a difference, but the update does not carry the desired value of that
field: for `repo_include` the source copies `input_policy["repo_exclude"]`
(line 245), so when desired lacks `repo_exclude` the call raises `KeyError`,
and when desired carries both the update's `repo_include` is the desired
`repo_exclude` value, not the desired `repo_include` value. -/
theorem c5_absent_field_wrong_value :
    comparePolicies [c5DesiredCrash] [c5Current] = .error "KeyError: repo_exclude" ∧
    comparePolicies [c5DesiredWrong] [c5Current] = .ok ([c5Updated], [c5Updated], []) ∧
    c5Updated.repo_include ≠ c5DesiredWrong.repo_include ∧
    c5Updated.repo_include = c5DesiredWrong.repo_exclude :=
  ⟨rfl, rfl, by decide, by decide⟩

/-- C6: a desired entity whose name matches two or more current entities is
skipped by both reconcilers: the run equals the run without that entity, and
no update or create entry carries the ambiguous name; this holds for the
condition reconciler and the policy reconciler alike. -/
theorem c6_duplicate_identity_excluded
    (D₁ D₂ : List Condition) (e : Condition) (C : List Condition)
    (P₁ P₂ : List Policy) (p : Policy) (CP : List Policy)
    (hdupC : 2 ≤ countCondName C e.name)
    (hdupP : 2 ≤ countName CP p.name) :
    compareConditions (D₁ ++ e :: D₂) C = compareConditions (D₁ ++ D₂) C ∧
    (∀ u ∈ (compareConditions (D₁ ++ e :: D₂) C).2.1, u.name ≠ e.name) ∧
    (∀ k ∈ (compareConditions (D₁ ++ e :: D₂) C).2.2, k.name ≠ e.name) ∧
    comparePolicies (P₁ ++ p :: P₂) CP = comparePolicies (P₁ ++ P₂) CP ∧
    (∀ res, comparePolicies (P₁ ++ p :: P₂) CP = .ok res →
      (∀ u ∈ res.2.1, u.name ≠ p.name) ∧ (∀ k ∈ res.2.2, k.name ≠ p.name)) := by
  refine ⟨compareConditions_skip_dup D₁ D₂ e C hdupC, ?_, ?_,
    comparePoliciesAux_skip_dup P₁ P₂ p CP hdupP, ?_⟩
  · intro u hu
    rcases compareConditions_fold_upd_mem (D₁ ++ e :: D₂) (C, [], []) u hu with h0 | h0
    · exact absurd h0 (List.not_mem_nil u)
    · intro hne
      rw [hne] at h0
      rw [h0] at hdupC
      simp at hdupC
  · intro k hk
    rcases compareConditions_fold_cre_mem (D₁ ++ e :: D₂) (C, [], []) k hk with h0 | h0
    · exact absurd h0 (List.not_mem_nil k)
    · intro hne
      rw [hne] at h0
      rw [h0] at hdupC
      simp at hdupC
  · intro res h
    constructor
    · intro u hu
      rcases comparePoliciesAux_upd_mem (P₁ ++ p :: P₂) (CP, [], []) res h u hu
        with h0 | ⟨h0, _⟩
      · exact absurd h0 (List.not_mem_nil u)
      · intro hne
        rw [hne] at h0
        rw [h0] at hdupP
        simp at hdupP
    · intro k hk
      rcases comparePoliciesAux_cre_mem (P₁ ++ p :: P₂) (CP, [], []) res h k hk
        with h0 | ⟨h0, _⟩
      · exact absurd h0 (List.not_mem_nil k)
      · intro hne
        rw [hne] at h0
        rw [h0] at hdupP
        simp at hdupP

/-- C6 witness: with two same-named current conditions and two same-named
current policies, running on the ambiguous desired entity equals running on
the empty desired list for both reconcilers. -/
theorem c6_duplicate_identity_excluded_witness :
    compareConditions [sampleCondition] c6CondCurrent =
      compareConditions [] c6CondCurrent ∧
    comparePolicies [samplePolicy] c6PolCurrent = comparePolicies [] c6PolCurrent := by
  have h := c6_duplicate_identity_excluded [] [] sampleCondition c6CondCurrent
    [] [] samplePolicy c6PolCurrent (by decide) (by decide)
  exact ⟨h.1, h.2.2.2.1⟩

/-- C7 counterexample: `compare_policies` mutates the caller's current
entities in place (the matched current dictionary is updated field by field
and that same dictionary is appended to the update list), so a run with a
differing scope leaves the caller's current list changed, refuting the
no-side-effects half of the claim. -/
theorem c7_counterexample :
    comparePolicies [c7Desired] [c7Current] = .ok ([c7Mutated], [c7Mutated], []) ∧
    c7Mutated ≠ c7Current :=
  ⟨rfl, by decide⟩

/-- C7 amended: the outputs are a deterministic function of the inputs, and
the only side effect is the in-place mutation of the current list, which is
exactly the update list applied by name: the post-call current list is the
input current list with each update entry substituted for the entity of the
same name. -/
theorem c7_mutation_characterization (D C : List Policy)
    (res : List Policy × List Policy × List Policy)
    (hD : (D.map (fun d => d.name)).Nodup)
    (h : comparePolicies D C = .ok res) :
    res.1 = C.map (fun c =>
      match res.2.1.find? (fun u => u.name == c.name) with
      | some u => u
      | none => c) :=
  comparePoliciesAux_mutation D C res hD h

/-- C7 witness: the mutated current list of the counterexample run is the
update list applied by name to the input current list. -/
theorem c7_mutation_characterization_witness :
    [c7Mutated] = [c7Current].map (fun c =>
      match [c7Mutated].find? (fun u => u.name == c.name) with
      | some u => u
      | none => c) :=
  c7_mutation_characterization [c7Desired] [c7Current] ([c7Mutated], [c7Mutated], [])
    (by decide) rfl

/-- C8: the reconciler compares every set-valued field by value set
(`set(a) != set(b)`), so a desired/current pair that agrees on every scalar
field and whose set-valued fields are equal as sets (in particular,
permutations of each other) produces no update: the run returns the current
list unchanged with empty update and create lists. -/
theorem c8_set_equality_invariance (d c : Policy)
    (hname : d.name = c.name)
    (h_en : d.enabled = c.enabled) (h_sc : d.scope = c.scope)
    (h_re : OptSetOk d.repo_exclude c.repo_exclude)
    (h_ri : OptSetOk d.repo_include c.repo_include)
    (h_pt : OptSetOk d.pkg_types_include c.pkg_types_include)
    (h_pa : d.policy_action = c.policy_action)
    (h_ci : d.condition_id = c.condition_id)
    (h_w : WaiversOk d.waivers c.waivers)
    (h_lw : LabelWaiversOk d.label_waivers c.label_waivers)
    (h_ne : OptSetOk d.notify_emails c.notify_emails)
    (h_wrc : d.waiver_request_config = c.waiver_request_config)
    (h_do : OptSetOk d.decision_owners c.decision_owners) :
    comparePolicies [d] [c] = .ok ([c], [], []) := by
  have hfil : List.filter (fun x => x.name == d.name) [c] = [c] := by
    simp [hname]
  rw [comparePolicies, comparePoliciesAux_eq_one ([c], [], []) d c [] hfil]
  rw [comparePolicyPair_noop d c h_en h_sc h_re h_ri h_pt h_pa h_ci h_w h_lw h_ne
    h_wrc h_do]
  simp only []
  have hstate : (([c].map fun x => if x.name == d.name then c else x : List Policy),
      (if (false : Bool) then ([] : List Policy) ++ [c] else []), ([] : List Policy)) =
      (([c] : List Policy), ([] : List Policy), ([] : List Policy)) := by
    simp
  rw [hstate]
  rfl

/-- C8 witness: desired repo_exclude ["a", "b"] against current ["b", "a"]
for the same identity produces no update. -/
theorem c8_set_equality_invariance_witness :
    comparePolicies [c8Desired] [c8Current] = .ok ([c8Current], [], []) :=
  c8_set_equality_invariance c8Desired c8Current rfl rfl rfl
    (by show (["a", "b"] : List String).toFinset = (["b", "a"] : List String).toFinset
        decide)
    ⟨⟩ ⟨⟩ rfl rfl ⟨⟩ ⟨⟩ ⟨⟩ rfl ⟨⟩

/-- C10: when the configuration holds a repository list,
`add_federated_repo_to_virtual_repo` succeeds and returns a configuration
whose "repositories" list has the federated key prepended, whose
"defaultDeploymentRepo" is the federated key, and which agrees with the
input on every other key; the input value itself is untouched (the source
deep-copies before editing). -/
theorem c10_add_federated_frame (cfg : List (String × JVal)) (key : String)
    (repos : List String)
    (h : dictGet cfg "repositories" = some (.arr repos)) :
    (∀ cfg', add_federated_repo_to_virtual_repo cfg key = some cfg' →
      dictGet cfg' "repositories" = some (.arr (key :: repos)) ∧
      dictGet cfg' "defaultDeploymentRepo" = some (.str key) ∧
      ∀ k, k ≠ "repositories" → k ≠ "defaultDeploymentRepo" →
        dictGet cfg' k = dictGet cfg k) ∧
    add_federated_repo_to_virtual_repo cfg key ≠ none := by
  constructor
  · intro cfg' hcfg
    rw [add_federated_repo_to_virtual_repo, h] at hcfg
    simp only [] at hcfg
    injection hcfg with hcfg
    refine ⟨?_, ?_, ?_⟩
    · rw [← hcfg, dictGet_dictSet_other _ _ _ _ (by decide)]
      exact dictGet_dictSet_self cfg "repositories" _
    · rw [← hcfg]
      exact dictGet_dictSet_self _ _ _
    · intro k hk1 hk2
      rw [← hcfg, dictGet_dictSet_other _ _ _ _ hk2, dictGet_dictSet_other _ _ _ _ hk1]
  · rw [add_federated_repo_to_virtual_repo, h]
    simp

/-- C10 witness: on a concrete four-key virtual configuration the output has
the federated key prepended, the default deployment repo reassigned, and the
unrelated "rclass" key unchanged. -/
theorem c10_add_federated_frame_witness :
    dictGet c10Out "repositories" = some (.arr ["fed", "r1", "r2"]) ∧
    dictGet c10Out "defaultDeploymentRepo" = some (.str "fed") ∧
    dictGet c10Out "rclass" = dictGet c10Cfg "rclass" := by
  have h := (c10_add_federated_frame c10Cfg "fed" ["r1", "r2"] rfl).1 c10Out rfl
  exact ⟨h.1, h.2.1, h.2.2 "rclass" (by decide) (by decide)⟩

end UtilityScripts
